import Mathlib

/-!
Verification of the ChatGPT UX suite's algorithmic core against its
natural-language specification.

The development shallowly embeds the pure logic of the content scripts:

* `TokenEstimator` — `tokenEstimator.js`: text-based token estimation and
  human-readable file-size parsing.  JS numbers are embedded as exact
  rationals (`ℚ`); a JS `NaN` result is embedded as `none`.
* `Scanner` — `unifiedContentScript.js` `determineMessageRole`: the
  multi-signal role classifier.  A DOM element is embedded as the record of
  the attribute values the classifier reads.
* `Navigator` — `unifiedContentScript.js` `PromptNavigator`: anchor
  building, target selection and the `jump` entry point.  DOM geometry
  (bounding rects, scroll positions) is passed in explicitly.
* `Collector` — `unifiedContentScript.js` `ContextCollector`: the
  selection set (a JS `Map` keyed by turn element, embedded as an
  insertion-ordered association list) and export serialization.

`Array.prototype.sort` with a numeric comparator is a stable ascending
sort (ES2019); it is embedded as a left-to-right stable insertion sort,
which is extensionally the unique stable sort.
-/

namespace ChatGPTUX

/-! ## JS string helpers shared by several components -/

/-- The character class of the JS regex `\s` restricted to the code points
that actually occur in chat text: space, tab, newline, carriage return,
vertical tab, form feed and no-break space. -/
def isJsWs (c : Char) : Bool :=
  c = ' ' || c = '\t' || c = '\n' || c = '\r' || c.val = 11 || c.val = 12 || c.val = 160

/-- Does `l` start with `needle`?  (Helper for `hasSub`.) -/
def startsWithL : List Char → List Char → Bool
  | _, [] => true
  | [], _ :: _ => false
  | c :: t, n :: nt => c = n && startsWithL t nt

/-- JS `String.prototype.includes`: substring containment. -/
def hasSub : List Char → List Char → Bool
  | [], needle => needle.isEmpty
  | c :: t, needle => startsWithL (c :: t) needle || hasSub t needle

/-- JS `includes` on strings. -/
def jsIncludes (hay needle : String) : Bool :=
  hasSub hay.data needle.data

namespace TokenEstimator

/-! ## `tokenEstimator.js` -/

/-- `WORD_TOKEN_MULTIPLIER = 1.33` -/
def WORD_TOKEN_MULTIPLIER : ℚ := 1.33

/-- `CHARS_PER_TOKEN = 4` -/
def CHARS_PER_TOKEN : ℚ := 4

/-- `text.replace(/\s+/g, ' ')`: collapse every whitespace run to a single
space.  The boolean argument records whether the previous character was
whitespace (i.e. whether we are inside a run already emitted). -/
def collapseWs : List Char → Bool → List Char
  | [], _ => []
  | c :: t, prevWs =>
    if isJsWs c then (if prevWs then [] else [' ']) ++ collapseWs t true
    else c :: collapseWs t false

/-- JS `String.prototype.trim`: drop whitespace from both ends. -/
def trimWs (l : List Char) : List Char :=
  ((l.dropWhile isJsWs).reverse.dropWhile isJsWs).reverse

/-- `text.replace(/\s+/g, ' ').trim()` — the normalized text. -/
def cleanedText (l : List Char) : List Char :=
  trimWs (collapseWs l false)

/-- Word counting, `countWords` fallback path
(`text.split(/\s+/u).filter(Boolean).length`): the number of maximal
non-whitespace runs.  The boolean records whether we are inside a run.
(The `Intl.Segmenter` path is an external browser API; the repository's
own pure fallback is embedded.) -/
def countWordsAux : List Char → Bool → ℕ
  | [], _ => 0
  | c :: t, inWord =>
    if isJsWs c then countWordsAux t false
    else (if inWord then 0 else 1) + countWordsAux t true

/-- `countWords` (whitespace-splitting fallback). -/
def countWords (l : List Char) : ℕ :=
  countWordsAux l false

/-- The record returned by `estimateTokensFromText`.  The zero result for
empty input carries no `graphemes` field in JS (`undefined`), embedded as
`none`. -/
structure TokenEstimate where
  tokens : ℕ
  words : ℕ
  characters : ℕ
  graphemes : Option ℕ
deriving Repr, DecidableEq

/-- `estimateTokensFromText` (`tokenEstimator.js:47-80`). -/
def estimateTokensFromText (text : String) : TokenEstimate :=
  if text = "" then ⟨0, 0, 0, none⟩ else
  let cleaned := cleanedText text.data
  if cleaned = [] then ⟨0, 0, 0, none⟩ else
  let words := countWords cleaned
  let characters := (cleaned.filter (fun c => !isJsWs c)).length
  let graphemes := cleaned.length
  -- `Math.ceil((words || 1) * WORD_TOKEN_MULTIPLIER)`; `words || 1 = max words 1`
  let byWord : ℤ := ⌈((max words 1 : ℕ) : ℚ) * WORD_TOKEN_MULTIPLIER⌉
  -- `Math.ceil(characters / CHARS_PER_TOKEN)`
  let byCharacter : ℤ := ⌈(characters : ℚ) / CHARS_PER_TOKEN⌉
  -- `Math.round(byWord * 0.4 + byCharacter * 0.6)`; JS `Math.round` is `⌊x + 1/2⌋`
  let blended : ℤ := round ((byWord : ℚ) * 0.4 + (byCharacter : ℚ) * 0.6)
  let tokens : ℤ := max 1 (max byWord (max byCharacter blended))
  ⟨tokens.toNat, words, characters, some graphemes⟩

/-! ### `parseFileSizeToBytes` (`tokenEstimator.js:89-123`)

The regex `/([\d.]+)\s*(kib|kb|mib|mb|gib|gb|tib|tb|b)/i` is embedded
directly: the digit class and the unit alternatives share no characters,
so backtracking never changes the outcome and maximal-munch matching at
the first viable start position is exact. -/

/-- `[\d.]` -/
def isNumChar (c : Char) : Bool :=
  c.isDigit || c = '.'

/-- Case-insensitive prefix test (regex `i` flag; units are ASCII). -/
def startsWithCI : List Char → List Char → Bool
  | _, [] => true
  | [], _ :: _ => false
  | c :: t, n :: nt => c.toLower = n && startsWithCI t nt

/-- The unit alternation, in the regex's order. -/
def SIZE_UNITS : List String :=
  ["kib", "kb", "mib", "mb", "gib", "gb", "tib", "tb", "b"]

/-- First unit alternative matching at the head of `l`. -/
def firstUnitAt (l : List Char) : Option String :=
  SIZE_UNITS.find? (fun u => startsWithCI l u.data)

/-- Attempt the whole pattern anchored at the head of `l`:
number run, optional whitespace, unit. -/
def tryMatchAt (l : List Char) : Option (List Char × String) :=
  let num := l.takeWhile isNumChar
  if num = [] then none
  else
    match firstUnitAt ((l.drop num.length).dropWhile isJsWs) with
    | some u => some (num, u)
    | none => none

/-- Unanchored regex search: first start position where the pattern
matches. -/
def findSizeMatch : List Char → Option (List Char × String)
  | [] => none
  | c :: t =>
    match tryMatchAt (c :: t) with
    | some m => some m
    | none => findSizeMatch t

/-- Numeric value of a digit list. -/
def digitsToNat (l : List Char) : ℕ :=
  l.foldl (fun n c => 10 * n + (c.toNat - '0'.toNat)) 0

/-- JS `parseFloat` on the captured group.  The group contains only
digits and dots, so sign and exponent handling are not needed:
parse `digits* ('.' digits*)?`, requiring at least one digit; anything
after a second dot is ignored; no digit at all yields `NaN` (`none`). -/
def parseFloatQ (l : List Char) : Option ℚ :=
  let ip := l.takeWhile Char.isDigit
  match l.drop ip.length with
  | '.' :: r =>
    let fp := r.takeWhile Char.isDigit
    if ip = [] && fp = [] then none
    else some ((digitsToNat ip : ℚ) + (digitsToNat fp : ℚ) / 10 ^ fp.length)
  | _ => if ip = [] then none else some (digitsToNat ip)

/-- The `switch` on the lower-cased unit: powers of 1024. -/
def unitScale (u : String) : ℚ :=
  if u = "tib" || u = "tb" then 1024 ^ 4
  else if u = "gib" || u = "gb" then 1024 ^ 3
  else if u = "mib" || u = "mb" then 1024 ^ 2
  else if u = "kib" || u = "kb" then 1024
  else 1

/-- `parseFileSizeToBytes`.  The JS function returns a number that can be
`NaN` (when `parseFloat` of the captured group is `NaN`); `NaN` is
embedded as `none`. -/
def parseFileSizeToBytes (sizeText : String) : Option ℚ :=
  if sizeText = "" then some 0 else
  match findSizeMatch (sizeText.data.filter (fun c => c ≠ ',')) with
  | none => some 0
  | some (num, u) => (parseFloatQ num).map (fun v => v * unitScale u)

end TokenEstimator

end ChatGPTUX

namespace ChatGPTUX
namespace TokenEstimator

/-! ### Support lemmas for the estimator -/

theorem collapseWs_all_ws_true {l : List Char} (h : ∀ c ∈ l, isJsWs c = true) :
    collapseWs l true = [] := by
  induction l with
  | nil => rfl
  | cons c t ih =>
    have hc : isJsWs c = true := h c (List.mem_cons_self c t)
    simp only [collapseWs, hc, if_pos, if_true]
    exact ih (fun x hx => h x (List.mem_cons_of_mem c hx))

theorem cleanedText_all_ws {l : List Char} (h : ∀ c ∈ l, isJsWs c = true) :
    cleanedText l = [] := by
  cases l with
  | nil => rfl
  | cons c t =>
    have hc : isJsWs c = true := h c (List.mem_cons_self c t)
    have ht : collapseWs t true = [] :=
      collapseWs_all_ws_true (fun x hx => h x (List.mem_cons_of_mem c hx))
    simp only [cleanedText, collapseWs, hc, if_true, if_pos]
    rw [ht]
    rfl

theorem mem_collapseWs {l : List Char} {c : Char} (hm : c ∈ l)
    (hw : isJsWs c = false) : ∀ b, c ∈ collapseWs l b := by
  induction l with
  | nil => cases hm
  | cons x t ih =>
    intro b
    rcases List.mem_cons.mp hm with h | h
    · subst h
      simp only [collapseWs, hw, if_neg, Bool.false_eq_true]
      exact List.mem_cons_self _ _
    · by_cases hx : isJsWs x = true
      · simp only [collapseWs, hx, if_true]
        exact List.mem_append_right _ (ih h true)
      · simp only [collapseWs, hx]
        exact List.mem_cons_of_mem _ (ih h false)

theorem mem_dropWhile_of_not {p : Char → Bool} {l : List Char} {c : Char}
    (hm : c ∈ l) (hc : p c = false) : c ∈ l.dropWhile p := by
  induction l with
  | nil => cases hm
  | cons x t ih =>
    rcases List.mem_cons.mp hm with h | h
    · subst h
      rw [List.dropWhile_cons, hc]
      exact List.mem_cons_self _ _
    · by_cases hx : p x = true
      · rw [List.dropWhile_cons, hx]
        simpa using ih h
      · rw [List.dropWhile_cons, Bool.of_not_eq_true hx]
        exact List.mem_cons_of_mem _ h

theorem mem_trimWs {l : List Char} {c : Char} (hm : c ∈ l)
    (hw : isJsWs c = false) : c ∈ trimWs l := by
  unfold trimWs
  rw [List.mem_reverse]
  exact mem_dropWhile_of_not (List.mem_reverse.mpr (mem_dropWhile_of_not hm hw)) hw

theorem cleanedText_ne_nil {l : List Char} {c : Char} (hm : c ∈ l)
    (hw : isJsWs c = false) : cleanedText l ≠ [] := by
  intro hnil
  have : c ∈ cleanedText l := mem_trimWs (mem_collapseWs hm hw false) hw
  rw [hnil] at this
  cases this

theorem dropWhile_head_false {p : Char → Bool} :
    ∀ (l : List Char) {c : Char} {t : List Char}, l.dropWhile p = c :: t → p c = false := by
  intro l
  induction l with
  | nil => intro c t h; cases h
  | cons x xs ih =>
    intro c t h
    rw [List.dropWhile_cons] at h
    by_cases hx : p x = true
    · rw [if_pos hx] at h
      exact ih h
    · rw [if_neg hx] at h
      cases h
      exact Bool.of_not_eq_true hx

theorem trimWs_any_of_ne_nil {l : List Char} (h : trimWs l ≠ []) :
    (trimWs l).any (fun c => !isJsWs c) = true := by
  unfold trimWs at h ⊢
  rcases hd : (l.dropWhile isJsWs).reverse.dropWhile isJsWs with _ | ⟨c, t⟩
  · rw [hd] at h
    exact absurd rfl h
  · have hc : isJsWs c = false := dropWhile_head_false _ hd
    rw [List.any_eq_true]
    exact ⟨c, List.mem_reverse.mpr (List.mem_cons_self c t), by simp [hc]⟩

theorem countWordsAux_pos {l : List Char}
    (h : l.any (fun c => !isJsWs c) = true) : 0 < countWordsAux l false := by
  induction l with
  | nil => cases h
  | cons c t ih =>
    by_cases hc : isJsWs c = true
    · have ht : t.any (fun x => !isJsWs x) = true := by
        rw [List.any_cons, hc] at h
        simpa using h
      simpa only [countWordsAux, hc, if_true] using ih ht
    · have hc' : isJsWs c = false := Bool.of_not_eq_true hc
      have hrw : countWordsAux (c :: t) false = 1 + countWordsAux t true := by
        simp [countWordsAux, hc']
      rw [hrw]
      omega

theorem countWords_pos {l : List Char}
    (h : l.any (fun c => !isJsWs c) = true) : 0 < countWords l :=
  countWordsAux_pos h

theorem estimateTokensFromText_spec {t : String} (ht : t ≠ "")
    (hcl : cleanedText t.data ≠ []) :
    estimateTokensFromText t =
      let cleaned := cleanedText t.data
      let words := countWords cleaned
      let characters := (cleaned.filter (fun c => !isJsWs c)).length
      let byWord : ℤ := ⌈((max words 1 : ℕ) : ℚ) * WORD_TOKEN_MULTIPLIER⌉
      let byCharacter : ℤ := ⌈(characters : ℚ) / CHARS_PER_TOKEN⌉
      let blended : ℤ := round ((byWord : ℚ) * 0.4 + (byCharacter : ℚ) * 0.6)
      ⟨(max 1 (max byWord (max byCharacter blended))).toNat,
        words, characters, some cleaned.length⟩ := by
  simp only [estimateTokensFromText, if_neg ht, if_neg hcl]

end TokenEstimator
end ChatGPTUX

namespace ChatGPTUX
namespace TokenEstimator

/-- C4: `estimateTokensFromText` returns all-zero counts exactly on
empty/whitespace-only input, and otherwise returns
`tokens = max 1 (max byWord (max byChar blended))` over the word count
and non-whitespace character count of the normalized text, with
`byWord = ⌈words * 1.33⌉`, `byChar = ⌈chars / 4⌉`,
`blended = round (byWord * 0.4 + byChar * 0.6)`; in particular the token
count is at least 1. -/
theorem c4_estimate_formula (t : String) :
    (t.data.all isJsWs = true →
      estimateTokensFromText t = ⟨0, 0, 0, none⟩) ∧
    (t.data.all isJsWs = false →
      (estimateTokensFromText t).words = countWords (cleanedText t.data) ∧
      (estimateTokensFromText t).characters
        = ((cleanedText t.data).filter (fun c => !isJsWs c)).length ∧
      ((estimateTokensFromText t).tokens : ℤ)
        = max 1 (max ⌈((estimateTokensFromText t).words : ℚ) * 1.33⌉
            (max ⌈((estimateTokensFromText t).characters : ℚ) / 4⌉
              (round ((⌈((estimateTokensFromText t).words : ℚ) * 1.33⌉ : ℤ) * (0.4 : ℚ)
                + (⌈((estimateTokensFromText t).characters : ℚ) / 4⌉ : ℤ) * (0.6 : ℚ))))) ∧
      1 ≤ (estimateTokensFromText t).tokens) := by
  constructor
  · intro h
    by_cases ht : t = ""
    · simp [estimateTokensFromText, ht]
    · have hall : ∀ c ∈ t.data, isJsWs c = true := by
        simpa [List.all_eq_true] using h
      have hc : cleanedText t.data = [] := cleanedText_all_ws hall
      simp [estimateTokensFromText, ht, hc]
  · intro h
    obtain ⟨c, hcmem, hcw⟩ : ∃ c ∈ t.data, ¬ isJsWs c = true := by
      simpa [List.all_eq_false] using h
    have hcw' : isJsWs c = false := Bool.of_not_eq_true hcw
    have ht : t ≠ "" := by
      intro h0
      rw [h0] at hcmem
      cases hcmem
    have hclean : cleanedText t.data ≠ [] := cleanedText_ne_nil hcmem hcw'
    have hany : (cleanedText t.data).any (fun x => !isJsWs x) = true := by
      have := trimWs_any_of_ne_nil (l := collapseWs t.data false)
      simp only [cleanedText] at hclean ⊢
      exact this hclean
    have hwpos : 0 < countWords (cleanedText t.data) := countWords_pos hany
    rw [estimateTokensFromText_spec ht hclean]
    simp only
    refine ⟨trivial, trivial, ?_, ?_⟩
    · rw [Nat.max_eq_left hwpos]
      rw [WORD_TOKEN_MULTIPLIER, CHARS_PER_TOKEN]
      set M : ℤ := max 1
        (max ⌈(countWords (cleanedText t.data) : ℚ) * 1.33⌉
          (max ⌈(((cleanedText t.data).filter (fun c => !isJsWs c)).length : ℚ) / 4⌉
            (round ((⌈(countWords (cleanedText t.data) : ℚ) * 1.33⌉ : ℤ) * (0.4 : ℚ)
              + (⌈(((cleanedText t.data).filter (fun c => !isJsWs c)).length : ℚ) / 4⌉ : ℤ)
                * (0.6 : ℚ))))) with hM
      have h1 : (1 : ℤ) ≤ M := by
        rw [hM]
        exact le_max_left _ _
      omega
    · rw [Nat.max_eq_left hwpos, WORD_TOKEN_MULTIPLIER]
      set M : ℤ := max 1
        (max ⌈(countWords (cleanedText t.data) : ℚ) * 1.33⌉
          (max ⌈(((cleanedText t.data).filter (fun c => !isJsWs c)).length : ℚ) / CHARS_PER_TOKEN⌉
            (round ((⌈(countWords (cleanedText t.data) : ℚ) * 1.33⌉ : ℤ) * (0.4 : ℚ)
              + (⌈(((cleanedText t.data).filter (fun c => !isJsWs c)).length : ℚ) / CHARS_PER_TOKEN⌉ : ℤ)
                * (0.6 : ℚ))))) with hM
      have h1 : (1 : ℤ) ≤ M := by
        rw [hM]
        exact le_max_left _ _
      omega

/-- Concrete instantiation of `c4_estimate_formula` at a whitespace-only
and at a non-trivial input. -/
theorem c4_estimate_formula_witness :
    (" \n ".data.all isJsWs = true ∧
      estimateTokensFromText " \n " = ⟨0, 0, 0, none⟩) ∧
    ("hello world foo".data.all isJsWs = false ∧
      1 ≤ (estimateTokensFromText "hello world foo").tokens) :=
  ⟨⟨by decide, (c4_estimate_formula " \n ").1 (by decide)⟩,
   ⟨by decide, ((c4_estimate_formula "hello world foo").2 (by decide)).2.2.2⟩⟩

/-- C7 (amended): `parseFileSizeToBytes` parses number-plus-unit suffixes
case-insensitively after stripping commas, scaling by powers of 1024 for
decimal and binary suffixes alike, and returns 0 whenever the
number-plus-unit pattern finds no match in the input. -/
theorem c7_parseFileSize :
    parseFileSizeToBytes "1.5 MB" = some (1.5 * 1024 ^ 2) ∧
    parseFileSizeToBytes "2 GiB" = some (2 * 1024 ^ 3) ∧
    parseFileSizeToBytes "2 gib" = some (2 * 1024 ^ 3) ∧
    parseFileSizeToBytes "1,536 KB" = some (1536 * 1024) ∧
    parseFileSizeToBytes "garbage" = some 0 ∧
    (∀ s : String, findSizeMatch (s.data.filter (fun c => c ≠ ',')) = none →
      parseFileSizeToBytes s = some 0) := by
  refine ⟨?_, ?_, ?_, ?_, by decide, ?_⟩
  · rw [show parseFileSizeToBytes "1.5 MB"
        = some (((digitsToNat ['1'] : ℚ) + (digitsToNat ['5'] : ℚ) / 10 ^ 1)
          * unitScale "mb") from rfl,
      show digitsToNat ['1'] = 1 from by decide,
      show digitsToNat ['5'] = 5 from by decide,
      show unitScale "mb" = 1024 ^ 2 from rfl]
    norm_num
  · rw [show parseFileSizeToBytes "2 GiB"
        = some ((digitsToNat ['2'] : ℚ) * unitScale "gib") from rfl,
      show digitsToNat ['2'] = 2 from by decide,
      show unitScale "gib" = 1024 ^ 3 from rfl]
    norm_num
  · rw [show parseFileSizeToBytes "2 gib"
        = some ((digitsToNat ['2'] : ℚ) * unitScale "gib") from rfl,
      show digitsToNat ['2'] = 2 from by decide,
      show unitScale "gib" = 1024 ^ 3 from rfl]
    norm_num
  · rw [show parseFileSizeToBytes "1,536 KB"
        = some ((digitsToNat ['1', '5', '3', '6'] : ℚ) * unitScale "kb") from rfl,
      show digitsToNat ['1', '5', '3', '6'] = 1536 from by decide,
      show unitScale "kb" = 1024 from rfl]
    norm_num
  · intro s h
    by_cases hs : s = ""
    · simp [parseFileSizeToBytes, hs]
    · rw [parseFileSizeToBytes, if_neg hs, h]

/-- Concrete instantiation of the no-match clause of `c7_parseFileSize`. -/
theorem c7_parseFileSize_witness :
    findSizeMatch ("no size here".data.filter (fun c => c ≠ ',')) = none ∧
    parseFileSizeToBytes "no size here" = some 0 :=
  ⟨by decide, c7_parseFileSize.2.2.2.2.2 "no size here" (by decide)⟩

/-- C7 counterexample: on the input `".kb"` no size can be parsed, yet
the function returns `NaN` (embedded `none`), not 0 — the regex matches
the digitless numeric text `"."`, whose `parseFloat` is `NaN`. -/
theorem c7_nan_counterexample :
    parseFileSizeToBytes ".kb" = none ∧ parseFileSizeToBytes ".kb" ≠ some 0 := by
  decide

end TokenEstimator
end ChatGPTUX

namespace ChatGPTUX
namespace Scanner

/-! ## `determineMessageRole` (`unifiedContentScript.js:111-129`)

A DOM element is embedded as the record of the four attribute reads the
classifier performs.  `getAttribute` returns `null` (`none`) or a string;
`el.dataset?.messageAuthorRole` mirrors the same
`data-message-author-role` attribute, so the `||` of the two reads is one
`Option String`.  `nestedRoleAttr` is the attribute value of the first
nested `[data-message-author-role]` element, `none` when no such element
exists (the selector guarantees the attribute is present on a hit). -/

structure Element where
  roleAttr : Option String
  nestedRoleAttr : Option String
  testId : String
  ariaLabel : String
deriving Repr, DecidableEq

/-- `determineMessageRole`.  JS string truthiness: the empty string is
falsy, so an empty explicit role attribute falls through. -/
def determineMessageRole (el : Element) (index : ℕ) : String :=
  let roleAttr := el.roleAttr.getD ""
  if roleAttr ≠ "" then roleAttr
  else
    match el.nestedRoleAttr with
    | some s => s
    | none =>
      let testId := el.testId.toLower
      if jsIncludes testId "user" then "user"
      else if jsIncludes testId "assistant" || jsIncludes testId "model"
          || jsIncludes testId "gpt" then "assistant"
      else
        let ariaLabel := el.ariaLabel.toLower
        if jsIncludes ariaLabel "you" then "user"
        else if jsIncludes ariaLabel "chatgpt" || jsIncludes ariaLabel "assistant" then "assistant"
        else if index % 2 = 0 then "user" else "assistant"

/-! ### The spec's fallback chain, stated as an ordered first-match-wins
list of classifier signals (the refinement target for C5). -/

/-- Signal 1: explicit role attribute on the element itself (truthy). -/
def explicitRoleSignal (el : Element) : Option String :=
  match el.roleAttr with
  | some s => if s = "" then none else some s
  | none => none

/-- Signal 2: role attribute on a nested element. -/
def nestedRoleSignal (el : Element) : Option String :=
  el.nestedRoleAttr

/-- Signal 3: substring match on the element's test-id. -/
def testIdSignal (el : Element) : Option String :=
  let t := el.testId.toLower
  if jsIncludes t "user" then some "user"
  else if jsIncludes t "assistant" || jsIncludes t "model" || jsIncludes t "gpt" then
    some "assistant"
  else none

/-- Signal 4: substring match on the element's aria-label. -/
def ariaLabelSignal (el : Element) : Option String :=
  let a := el.ariaLabel.toLower
  if jsIncludes a "you" then some "user"
  else if jsIncludes a "chatgpt" || jsIncludes a "assistant" then some "assistant"
  else none

/-- Positional fallback: even index is user, odd is assistant. -/
def positionalFallback (index : ℕ) : String :=
  if index % 2 = 0 then "user" else "assistant"

/-- First-match-wins over an ordered list of signals. -/
def firstSignal (signals : List (Option String)) : Option String :=
  (signals.filterMap id).head?

/-- C5: role classification evaluates the signals in exactly this order,
stopping at the first match — explicit role attribute, nested role
attribute, test-id substring, aria-label substring — and otherwise the
positional even-user/odd-assistant fallback. -/
theorem c5_role_priority_chain (el : Element) (index : ℕ) :
    determineMessageRole el index
      = (firstSignal [explicitRoleSignal el, nestedRoleSignal el,
          testIdSignal el, ariaLabelSignal el]).getD (positionalFallback index) := by
  cases h1 : el.roleAttr with
  | some s =>
    by_cases hs : s = ""
    · cases h2 : el.nestedRoleAttr <;>
        simp [determineMessageRole, firstSignal, explicitRoleSignal, nestedRoleSignal,
          testIdSignal, ariaLabelSignal, positionalFallback, h1, h2, hs] <;>
        split_ifs <;> simp_all
    · simp [determineMessageRole, firstSignal, explicitRoleSignal, h1, hs]
  | none =>
    cases h2 : el.nestedRoleAttr <;>
      simp [determineMessageRole, firstSignal, explicitRoleSignal, nestedRoleSignal,
        testIdSignal, ariaLabelSignal, positionalFallback, h1, h2] <;>
      split_ifs <;> simp_all

end Scanner
end ChatGPTUX

namespace ChatGPTUX

/-! ## Stable sort

`Array.prototype.sort` with comparator `(a, b) => a.y - b.y` is a stable
ascending sort by the key.  A stable sort is extensionally unique, so it
is embedded as a left-to-right stable insertion sort: each element is
inserted after all previously processed elements with key less than or
equal to its own, preserving the original relative order of equal keys. -/

/-- Insert `x` after every element whose key is `≤ key x`. -/
def stableInsert {α : Type} (key : α → ℚ) (x : α) : List α → List α
  | [] => [x]
  | h :: t => if key x < key h then x :: h :: t else h :: stableInsert key x t

/-- Stable ascending sort by `key` (left-to-right insertion). -/
def stableSortByKey {α : Type} (key : α → ℚ) (l : List α) : List α :=
  l.foldl (fun acc x => stableInsert key x acc) []

theorem stableInsert_perm {α : Type} (key : α → ℚ) (x : α) (l : List α) :
    List.Perm (stableInsert key x l) (x :: l) := by
  induction l with
  | nil => rfl
  | cons h t ih =>
    by_cases hx : key x < key h
    · simp [stableInsert, hx]
    · simp only [stableInsert, if_neg hx]
      exact List.Perm.trans (ih.cons h) (List.Perm.swap _ _ _)

theorem stableSortByKey_perm {α : Type} (key : α → ℚ) (l : List α) :
    List.Perm (stableSortByKey key l) l := by
  suffices h : ∀ (l acc : List α),
      List.Perm (l.foldl (fun acc x => stableInsert key x acc) acc) (acc ++ l) by
    simpa using h l []
  intro l
  induction l with
  | nil => simp
  | cons x t ih =>
    intro acc
    refine List.Perm.trans (ih (stableInsert key x acc)) ?_
    refine List.Perm.trans ((stableInsert_perm key x acc).append_right t) ?_
    simpa using (@List.perm_middle _ x acc t).symm

theorem stableInsert_sorted {α : Type} (key : α → ℚ) (x : α) {l : List α}
    (hl : l.Sorted (fun a b => key a ≤ key b)) :
    (stableInsert key x l).Sorted (fun a b => key a ≤ key b) := by
  induction l with
  | nil => simp [stableInsert]
  | cons h t ih =>
    rw [List.sorted_cons] at hl
    by_cases hx : key x < key h
    · rw [stableInsert, if_pos hx, List.sorted_cons]
      refine ⟨?_, List.sorted_cons.mpr hl⟩
      intro b hb
      rcases List.mem_cons.mp hb with rfl | hb
      · exact le_of_lt hx
      · exact le_trans (le_of_lt hx) (hl.1 b hb)
    · rw [stableInsert, if_neg hx, List.sorted_cons]
      refine ⟨?_, ih hl.2⟩
      intro b hb
      have hb' : b ∈ x :: t := (stableInsert_perm key x t).mem_iff.mp hb
      rcases List.mem_cons.mp hb' with rfl | hb'
      · exact le_of_not_lt hx
      · exact hl.1 b hb'

theorem stableSortByKey_sorted {α : Type} (key : α → ℚ) (l : List α) :
    (stableSortByKey key l).Sorted (fun a b => key a ≤ key b) := by
  suffices h : ∀ (l acc : List α), acc.Sorted (fun a b => key a ≤ key b) →
      (l.foldl (fun acc x => stableInsert key x acc) acc).Sorted (fun a b => key a ≤ key b) by
    exact h l [] (by simp)
  intro l
  induction l with
  | nil => intro acc h; simpa using h
  | cons x t ih =>
    intro acc h
    exact ih _ (stableInsert_sorted key x h)

theorem stableInsert_eq_append {α : Type} (key : α → ℚ) (x : α) {l : List α}
    (h : ∀ a ∈ l, ¬ key x < key a) : stableInsert key x l = l ++ [x] := by
  induction l with
  | nil => rfl
  | cons b t ih =>
    rw [stableInsert, if_neg (h b (List.mem_cons_self b t))]
    rw [ih (fun a ha => h a (List.mem_cons_of_mem b ha))]
    rfl

theorem stableSortByKey_concat {α : Type} (key : α → ℚ) (l : List α) (x : α) :
    stableSortByKey key (l ++ [x]) = stableInsert key x (stableSortByKey key l) := by
  simp [stableSortByKey, List.foldl_append]

namespace Navigator

/-! ## `PromptNavigator` (`unifiedContentScript.js:696-864`)

A scanned user prompt is embedded as its DOM identity plus the geometry
`jump` reads from it (`getBoundingClientRect().top/.height`); the scroll
context carries the fields `getScrollContext` returns.  The `isWindow`
distinction only selects which DOM object the scroll extent is read
from; the value itself is the `scrollHeight` field. -/

structure Prompt where
  id : ℕ
  rectTop : ℚ
  rectHeight : ℚ
deriving Repr, DecidableEq

structure ScrollContext where
  scrollTop : ℚ
  viewHeight : ℚ
  containerTop : ℚ
  scrollHeight : ℚ
deriving Repr, DecidableEq

inductive AnchorKind where
  | top
  | bottom
  | chatBottom
deriving Repr, DecidableEq

structure Anchor where
  element : Option ℕ
  kind : AnchorKind
  y : ℚ
  promptIndex : ℕ
deriving Repr, DecidableEq

/-- The `lastAnchor` record: `{ element, kind }`. -/
structure LastAnchor where
  element : Option ℕ
  kind : AnchorKind
deriving Repr, DecidableEq

/-- `context.scrollTop + (rect.top - context.containerTop)` — a turn's
start offset in scroll coordinates. -/
def topYOf (context : ScrollContext) (el : Prompt) : ℚ :=
  context.scrollTop + (el.rectTop - context.containerTop)

/-- The `prompts.forEach((el, index) => ...)` body of `buildAnchors`:
a `top` anchor per prompt, plus a `bottom` anchor when the rendered
height exceeds `viewHeight * 0.8`. -/
def rawAnchors (context : ScrollContext) : List Prompt → ℕ → List Anchor
  | [], _ => []
  | el :: rest, index =>
    let topY := topYOf context el
    let height := el.rectHeight
    ⟨some el.id, .top, topY, index⟩ ::
      ((if height > context.viewHeight * 0.8 then [⟨some el.id, .bottom, topY + height, index⟩]
        else []) ++ rawAnchors context rest (index + 1))

/-- `buildAnchors` (`unifiedContentScript.js:749-764`): turn anchors,
one trailing `chat-bottom` anchor at the scroll extent, sorted ascending
by `y` (stable). -/
def buildAnchors (prompts : List Prompt) (context : ScrollContext) : List Anchor :=
  stableSortByKey Anchor.y
    (rawAnchors context prompts 0
      ++ [⟨none, .chatBottom, context.scrollHeight, prompts.length⟩])

/-- The `getTargetScroll` helper of `findTargetAnchor`. -/
def getTargetScroll (context : ScrollContext) (anchor : Anchor) : ℚ :=
  match anchor.kind with
  | .chatBottom => context.scrollHeight - context.viewHeight
  | .top => anchor.y - context.viewHeight * 0.15
  | .bottom => anchor.y - context.viewHeight + context.viewHeight * 0.2

/-- The identity-plus-kind match used to locate `lastAnchor` in a fresh
anchor list. -/
def anchorMatches (la : LastAnchor) (a : Anchor) : Bool :=
  decide (a.element = la.element ∧ a.kind = la.kind)

/-- `anchors.findIndex(...)` on the recorded anchor; JS `-1` is `none`. -/
def currentIndexOf (lastAnchor : Option LastAnchor) (anchors : List Anchor) : Option ℕ :=
  lastAnchor.bind (fun la => anchors.findIdx? (anchorMatches la))

inductive Direction where
  | previous
  | next
deriving Repr, DecidableEq

/-- `findTargetAnchor` (`unifiedContentScript.js:766-816`). -/
def findTargetAnchor (anchors : List Anchor) (context : ScrollContext)
    (direction : Direction) (lastAnchor : Option LastAnchor) : Option Anchor :=
  let currentScroll := context.scrollTop
  match currentIndexOf lastAnchor anchors with
  | none =>
    -- no valid last anchor: select directly by scroll-position comparison
    let tolerance : ℚ := 10
    match direction with
    | .previous =>
      anchors.reverse.find? (fun a => decide (getTargetScroll context a < currentScroll - tolerance))
    | .next =>
      anchors.find? (fun a => decide (getTargetScroll context a > currentScroll + tolerance))
  | some currentIndex =>
    -- valid lastAnchor: sequential navigation
    match direction with
    | .next => if currentIndex ≥ anchors.length - 1 then none else anchors[currentIndex + 1]?
    | .previous => if currentIndex ≤ 0 then none else anchors[currentIndex - 1]?

/-- `scrollToAnchor` (`unifiedContentScript.js:818-838`), returning the
scroll offset actually written (clamped to `[0, maxScroll]`).  The
smooth-versus-auto behavior choice depends on wall-clock time and does
not affect the offset. -/
def scrollToAnchor (anchor : Anchor) (context : ScrollContext) : ℚ :=
  let targetScrollTop : ℚ :=
    match anchor.kind with
    | .chatBottom => context.scrollHeight - context.viewHeight
    | .top => anchor.y - context.viewHeight * 0.15
    | .bottom => anchor.y - context.viewHeight + context.viewHeight * 0.2
  let maxScroll := context.scrollHeight - context.viewHeight
  max 0 (min targetScrollTop maxScroll)

/-- Module state read and written by `jump`. -/
structure NavState where
  prompts : List Prompt
  lastAnchor : Option LastAnchor
deriving Repr, DecidableEq

inductive JumpResult where
  | success (promptIndex : ℕ) (total : ℕ)
  | failure (reason : String)
deriving Repr, DecidableEq

/-- `jump`'s return value plus its side effects: the scroll offset
written (if any) and the updated module state. -/
structure JumpOutcome where
  result : JumpResult
  applied : Option ℚ
  state : NavState
deriving Repr, DecidableEq

/-- `jump` (`unifiedContentScript.js:840-850`). -/
def jump (st : NavState) (context : ScrollContext) (direction : Direction) : JumpOutcome :=
  if st.prompts.length = 0 then ⟨.failure "no_prompts", none, st⟩ else
  let anchors := buildAnchors st.prompts context
  if anchors.length = 0 then ⟨.failure "no_anchors", none, st⟩ else
  match findTargetAnchor anchors context direction st.lastAnchor with
  | none => ⟨.failure "no_target", none, st⟩
  | some target =>
    ⟨.success target.promptIndex st.prompts.length,
      some (scrollToAnchor target context),
      { st with lastAnchor := some ⟨target.element, target.kind⟩ }⟩

theorem scrollToAnchor_eq (anchor : Anchor) (context : ScrollContext) :
    scrollToAnchor anchor context
      = max 0 (min (getTargetScroll context anchor)
          (context.scrollHeight - context.viewHeight)) := by
  cases anchor with
  | mk e k y pi => cases k <;> rfl

end Navigator
end ChatGPTUX

namespace ChatGPTUX
namespace Navigator

/-- C1 (amended): with no usable prior anchor, a successful `jump`
targets an unclamped offset strictly beyond the current one (past the
10px tolerance), and the applied offset — clamped to `[0, maxScroll]` —
moves strictly in the requested direction provided the current offset is
not already pinned at the relevant clamp boundary (`scrollTop < maxScroll`
for `next`, `0 < scrollTop` for `previous`). -/
theorem c1_first_jump_direction (st : NavState) (context : ScrollContext)
    (direction : Direction)
    (hfresh : currentIndexOf st.lastAnchor (buildAnchors st.prompts context) = none)
    (pi total : ℕ)
    (hsucc : (jump st context direction).result = .success pi total) :
    ∃ target q,
      findTargetAnchor (buildAnchors st.prompts context) context direction st.lastAnchor
        = some target ∧
      (jump st context direction).applied = some q ∧
      (direction = .next →
        context.scrollTop + 10 < getTargetScroll context target ∧
        (context.scrollTop < context.scrollHeight - context.viewHeight →
          context.scrollTop < q)) ∧
      (direction = .previous →
        getTargetScroll context target < context.scrollTop - 10 ∧
        (0 < context.scrollTop → q < context.scrollTop)) := by
  by_cases h0 : st.prompts.length = 0
  · rw [jump, if_pos h0] at hsucc
    cases hsucc
  by_cases h1 : (buildAnchors st.prompts context).length = 0
  · rw [jump, if_neg h0] at hsucc
    simp only [if_pos h1] at hsucc
    cases hsucc
  cases htgt : findTargetAnchor (buildAnchors st.prompts context) context direction
      st.lastAnchor with
  | none =>
    rw [jump, if_neg h0] at hsucc
    simp only [if_neg h1, htgt] at hsucc
    cases hsucc
  | some target =>
    have happ : (jump st context direction).applied = some (scrollToAnchor target context) := by
      rw [jump, if_neg h0]
      simp only [if_neg h1, htgt]
    refine ⟨target, scrollToAnchor target context, rfl, happ, ?_, ?_⟩
    · rintro rfl
      rw [findTargetAnchor, hfresh] at htgt
      simp only at htgt
      have hp := List.find?_some htgt
      have hlt : context.scrollTop + 10 < getTargetScroll context target :=
        of_decide_eq_true hp
      refine ⟨hlt, fun hmax => ?_⟩
      rw [scrollToAnchor_eq]
      have hmin : context.scrollTop
          < min (getTargetScroll context target) (context.scrollHeight - context.viewHeight) :=
        lt_min (by linarith) hmax
      calc context.scrollTop
          < min (getTargetScroll context target) (context.scrollHeight - context.viewHeight) :=
            hmin
        _ ≤ max 0 (min (getTargetScroll context target)
              (context.scrollHeight - context.viewHeight)) := le_max_right _ _
    · rintro rfl
      rw [findTargetAnchor, hfresh] at htgt
      simp only at htgt
      have hp := List.find?_some htgt
      have hlt : getTargetScroll context target < context.scrollTop - 10 :=
        of_decide_eq_true hp
      refine ⟨hlt, fun hpos => ?_⟩
      rw [scrollToAnchor_eq]
      refine max_lt hpos ?_
      calc min (getTargetScroll context target) (context.scrollHeight - context.viewHeight)
          ≤ getTargetScroll context target := min_le_left _ _
        _ < context.scrollTop := by linarith

/-- Concrete instantiation of `c1_first_jump_direction`: one prompt at
rect top 100, viewport 100, scroll extent 1000, current offset 0; the
first `jump(next)` succeeds and strictly increases the offset. -/
theorem c1_first_jump_direction_witness :
    ∃ q, (jump ⟨[⟨0, 100, 10⟩], none⟩ ⟨0, 100, 0, 1000⟩ .next).applied = some q ∧
      (0 : ℚ) < q := by
  obtain ⟨target, q, -, happ, hnext, -⟩ :=
    c1_first_jump_direction ⟨[⟨0, 100, 10⟩], none⟩ ⟨0, 100, 0, 1000⟩ .next rfl 0 1
      (by norm_num [jump, buildAnchors, rawAnchors, topYOf, stableSortByKey, stableInsert,
        findTargetAnchor, currentIndexOf, getTargetScroll, scrollToAnchor])
  exact ⟨q, happ, (hnext rfl).2 (by norm_num)⟩

/-- C1 counterexample: scrolled to the very top (`scrollTop = 0`) with a
prompt whose top anchor targets a negative offset, `jump(previous)`
returns success but the clamped applied offset is 0 — not strictly
smaller than the offset at the time of the call. -/
theorem c1_clamp_counterexample :
    (jump ⟨[⟨0, 0, 10⟩], none⟩ ⟨0, 100, 0, 1000⟩ .previous).result
      = .success 0 1 ∧
    (jump ⟨[⟨0, 0, 10⟩], none⟩ ⟨0, 100, 0, 1000⟩ .previous).applied = some 0 ∧
    ¬ (∃ q, (jump ⟨[⟨0, 0, 10⟩], none⟩ ⟨0, 100, 0, 1000⟩ .previous).applied = some q ∧
        q < (⟨0, 100, 0, 1000⟩ : ScrollContext).scrollTop) := by
  have h : jump ⟨[⟨0, 0, 10⟩], none⟩ ⟨0, 100, 0, 1000⟩ .previous
      = ⟨.success 0 1, some 0, ⟨[⟨0, 0, 10⟩], some ⟨some 0, .top⟩⟩⟩ := by
    norm_num [jump, buildAnchors, rawAnchors, topYOf, stableSortByKey, stableInsert,
      findTargetAnchor, currentIndexOf, getTargetScroll, scrollToAnchor]
  refine ⟨by rw [h], by rw [h], ?_⟩
  rintro ⟨q, hq, hlt⟩
  rw [h] at hq
  cases hq
  exact absurd hlt (by norm_num)

/-- C8 (amended): `jump` failures report exactly one of the reasons
`no_prompts`, `no_anchors`, `no_target`; with no scanned prompts it fails
with `no_prompts`; a success carries the chosen anchor's prompt ordinal
and the total prompt count. -/
theorem c8_result_reporting (st : NavState) (context : ScrollContext)
    (direction : Direction) :
    (st.prompts = [] → jump st context direction = ⟨.failure "no_prompts", none, st⟩) ∧
    (∀ reason, (jump st context direction).result = .failure reason →
      reason = "no_prompts" ∨ reason = "no_anchors" ∨ reason = "no_target") ∧
    (∀ pi total, (jump st context direction).result = .success pi total →
      total = st.prompts.length ∧
      ∃ a, findTargetAnchor (buildAnchors st.prompts context) context direction st.lastAnchor
          = some a ∧ pi = a.promptIndex) := by
  refine ⟨fun hnil => ?_, fun reason hfail => ?_, fun pi total hsucc => ?_⟩
  · rw [jump, if_pos (by simp [hnil])]
  · by_cases h0 : st.prompts.length = 0
    · rw [jump, if_pos h0] at hfail
      cases hfail
      exact Or.inl rfl
    by_cases h1 : (buildAnchors st.prompts context).length = 0
    · rw [jump, if_neg h0] at hfail
      simp only [if_pos h1] at hfail
      cases hfail
      exact Or.inr (Or.inl rfl)
    cases htgt : findTargetAnchor (buildAnchors st.prompts context) context direction
        st.lastAnchor with
    | none =>
      rw [jump, if_neg h0] at hfail
      simp only [if_neg h1, htgt] at hfail
      cases hfail
      exact Or.inr (Or.inr rfl)
    | some target =>
      rw [jump, if_neg h0] at hfail
      simp only [if_neg h1, htgt] at hfail
      cases hfail
  · by_cases h0 : st.prompts.length = 0
    · rw [jump, if_pos h0] at hsucc
      cases hsucc
    by_cases h1 : (buildAnchors st.prompts context).length = 0
    · rw [jump, if_neg h0] at hsucc
      simp only [if_pos h1] at hsucc
      cases hsucc
    cases htgt : findTargetAnchor (buildAnchors st.prompts context) context direction
        st.lastAnchor with
    | none =>
      rw [jump, if_neg h0] at hsucc
      simp only [if_neg h1, htgt] at hsucc
      cases hsucc
    | some target =>
      rw [jump, if_neg h0] at hsucc
      simp only [if_neg h1, htgt, JumpResult.success.injEq] at hsucc
      exact ⟨hsucc.2.symm, target, rfl, hsucc.1.symm⟩

/-- Concrete instantiation of `c8_result_reporting`: an empty scan fails
with `no_prompts`. -/
theorem c8_result_reporting_witness :
    jump ⟨[], none⟩ ⟨0, 100, 0, 1000⟩ .next
      = ⟨.failure "no_prompts", none, ⟨[], none⟩⟩ :=
  (c8_result_reporting ⟨[], none⟩ ⟨0, 100, 0, 1000⟩ .next).1 rfl

/-- C8 counterexample: the empty-scan failure reason is the literal
string `no_prompts`, not `no_turns` as the claim states. -/
theorem c8_reason_counterexample :
    (jump ⟨[], none⟩ ⟨0, 100, 0, 1000⟩ .next).result = .failure "no_prompts" ∧
    "no_prompts" ≠ "no_turns" :=
  ⟨rfl, by decide⟩

/-- `findIndex` with a key-equality predicate finds exactly the slot of
the probed element when the keys are duplicate-free. -/
theorem findIdx?_decide_key_eq {α κ : Type} [DecidableEq κ] (key : α → κ) :
    ∀ (l : List α) (j : ℕ) (h : j < l.length) (s : ℕ),
      (l.map key).Nodup →
      List.findIdx? (fun a => decide (key a = key (l.get ⟨j, h⟩))) l s = some (s + j) := by
  intro l
  induction l with
  | nil =>
    intro j h
    exact absurd h (by simp)
  | cons x t ih =>
    intro j h s hnd
    rw [List.map_cons, List.nodup_cons] at hnd
    cases j with
    | zero =>
      rw [List.findIdx?_cons, if_pos (by simp)]
      simp
    | succ j' =>
      have hj' : j' < t.length := by simpa using h
      have hget : (x :: t).get ⟨j' + 1, h⟩ = t.get ⟨j', hj'⟩ := rfl
      have hx : ¬ key x = key ((x :: t).get ⟨j' + 1, h⟩) := by
        rw [hget]
        intro hcontra
        exact hnd.1 (by
          rw [hcontra]
          exact List.mem_map_of_mem key (List.get_mem t j' hj'))
      rw [List.findIdx?_cons, if_neg (by simpa using hx)]
      have h2 := ih j' hj' (s + 1) hnd.2
      rw [show s + (j' + 1) = (s + 1) + j' by omega]
      exact h2

/-- The identity+kind match predicate is a key-equality predicate for
the key `(element, kind)`. -/
theorem anchorMatches_as_key (la : LastAnchor) :
    anchorMatches la = fun a => decide ((a.element, a.kind) = (la.element, la.kind)) := by
  funext a
  simp [anchorMatches, Prod.ext_iff]

/-- `buildAnchors` output always holds one more anchor than
`rawAnchors` (the trailing chat-bottom anchor). -/
theorem buildAnchors_length (prompts : List Prompt) (context : ScrollContext) :
    (buildAnchors prompts context).length = (rawAnchors context prompts 0).length + 1 := by
  rw [buildAnchors, (stableSortByKey_perm Anchor.y _).length_eq]
  simp

/-- C2: with a recorded anchor found at index `i` of the rebuilt anchor
list (whose identity+kind keys are duplicate-free), `jump('next')`
selects and records the anchor at slot `i + 1`, advancing the recorded
index by exactly one; from the last slot `jump('next')` fails with
`no_target`, and from slot 0 `jump('previous')` fails with `no_target`,
both leaving the state unchanged. -/
theorem c2_sequential_navigation (st : NavState) (context : ScrollContext)
    (la : LastAnchor) (i : ℕ)
    (hprompts : st.prompts ≠ [])
    (hla : st.lastAnchor = some la)
    (hfound : (buildAnchors st.prompts context).findIdx? (anchorMatches la) = some i)
    (hkeys : ((buildAnchors st.prompts context).map fun a => (a.element, a.kind)).Nodup) :
    (i + 1 < (buildAnchors st.prompts context).length →
      ∃ a, (buildAnchors st.prompts context)[i + 1]? = some a ∧
        (jump st context .next).result = .success a.promptIndex st.prompts.length ∧
        (jump st context .next).state.prompts = st.prompts ∧
        (jump st context .next).state.lastAnchor = some ⟨a.element, a.kind⟩ ∧
        currentIndexOf (jump st context .next).state.lastAnchor
          (buildAnchors (jump st context .next).state.prompts context) = some (i + 1)) ∧
    (i = (buildAnchors st.prompts context).length - 1 →
      jump st context .next = ⟨.failure "no_target", none, st⟩) ∧
    (i = 0 →
      jump st context .previous = ⟨.failure "no_target", none, st⟩) := by
  have h0 : ¬ st.prompts.length = 0 := by simpa using hprompts
  have hlen1 : (buildAnchors st.prompts context).length ≠ 0 := by
    rw [buildAnchors_length]
    omega
  have hcur : currentIndexOf st.lastAnchor (buildAnchors st.prompts context) = some i := by
    rw [hla]
    simpa [currentIndexOf] using hfound
  refine ⟨fun hi => ?_, fun hi => ?_, fun hi => ?_⟩
  · have hnotlast : ¬ i ≥ (buildAnchors st.prompts context).length - 1 := by omega
    have hget : (buildAnchors st.prompts context)[i + 1]?
        = some ((buildAnchors st.prompts context).get ⟨i + 1, hi⟩) := by
      rw [List.getElem?_eq_getElem hi]
      simp [List.get_eq_getElem]
    refine ⟨(buildAnchors st.prompts context).get ⟨i + 1, hi⟩, hget, ?_⟩
    have htgt : findTargetAnchor (buildAnchors st.prompts context) context .next
        st.lastAnchor = some ((buildAnchors st.prompts context).get ⟨i + 1, hi⟩) := by
      rw [findTargetAnchor, hcur]
      simp only [if_neg hnotlast]
      exact hget
    have hj : jump st context .next
        = ⟨.success ((buildAnchors st.prompts context).get ⟨i + 1, hi⟩).promptIndex
            st.prompts.length,
          some (scrollToAnchor ((buildAnchors st.prompts context).get ⟨i + 1, hi⟩) context),
          { st with lastAnchor := some ⟨((buildAnchors st.prompts context).get ⟨i + 1, hi⟩).element,
            ((buildAnchors st.prompts context).get ⟨i + 1, hi⟩).kind⟩ }⟩ := by
      rw [jump, if_neg h0]
      simp only [if_neg hlen1, htgt]
    rw [hj]
    refine ⟨rfl, rfl, rfl, ?_⟩
    simp only [currentIndexOf, Option.bind_eq_bind, Option.some_bind]
    rw [anchorMatches_as_key]
    simpa using findIdx?_decide_key_eq (fun a => (a.element, a.kind))
      (buildAnchors st.prompts context) (i + 1) hi 0 hkeys
  · have htgt : findTargetAnchor (buildAnchors st.prompts context) context .next
        st.lastAnchor = none := by
      rw [findTargetAnchor, hcur]
      simp only [if_pos (by omega : i ≥ (buildAnchors st.prompts context).length - 1)]
    rw [jump, if_neg h0]
    simp only [if_neg hlen1, htgt]
  · have htgt : findTargetAnchor (buildAnchors st.prompts context) context .previous
        st.lastAnchor = none := by
      rw [findTargetAnchor, hcur]
      simp only [if_pos (by omega : i ≤ 0)]
    rw [jump, if_neg h0]
    simp only [if_neg hlen1, htgt]

/-- Concrete instantiation of `c2_sequential_navigation`: two prompts,
recorded anchor at slot 0; `jump(next)` advances the recorded index to
1 and `jump(previous)` from slot 0 fails with `no_target`. -/
theorem c2_sequential_navigation_witness :
    (jump ⟨[⟨1, 0, 10⟩, ⟨2, 300, 10⟩], some ⟨some 1, .top⟩⟩ ⟨0, 100, 0, 1000⟩ .next).result
      = .success 1 2 ∧
    currentIndexOf
      (jump ⟨[⟨1, 0, 10⟩, ⟨2, 300, 10⟩], some ⟨some 1, .top⟩⟩
        ⟨0, 100, 0, 1000⟩ .next).state.lastAnchor
      (buildAnchors
        (jump ⟨[⟨1, 0, 10⟩, ⟨2, 300, 10⟩], some ⟨some 1, .top⟩⟩
          ⟨0, 100, 0, 1000⟩ .next).state.prompts
        ⟨0, 100, 0, 1000⟩) = some 1 ∧
    jump ⟨[⟨1, 0, 10⟩, ⟨2, 300, 10⟩], some ⟨some 1, .top⟩⟩ ⟨0, 100, 0, 1000⟩ .previous
      = ⟨.failure "no_target", none, ⟨[⟨1, 0, 10⟩, ⟨2, 300, 10⟩], some ⟨some 1, .top⟩⟩⟩ := by
  have hb : buildAnchors [⟨1, 0, 10⟩, ⟨2, 300, 10⟩] (⟨0, 100, 0, 1000⟩ : ScrollContext)
      = [⟨some 1, .top, 0, 0⟩, ⟨some 2, .top, 300, 1⟩, ⟨none, .chatBottom, 1000, 2⟩] := by
    norm_num [buildAnchors, rawAnchors, topYOf, stableSortByKey, stableInsert]
  obtain ⟨h1, -, h3⟩ := c2_sequential_navigation
    ⟨[⟨1, 0, 10⟩, ⟨2, 300, 10⟩], some ⟨some 1, .top⟩⟩ ⟨0, 100, 0, 1000⟩ ⟨some 1, .top⟩ 0
    (by simp) rfl (by rw [hb]; decide) (by rw [hb]; decide)
  obtain ⟨a, ha, hr, -, -, hc⟩ := h1 (by rw [hb]; decide)
  rw [hb] at ha
  have ha' : a = ⟨some 2, .top, 300, 1⟩ := by
    simpa using ha.symm
  subst ha'
  exact ⟨hr, by simpa using hc, h3 rfl⟩

/-- Every turn-derived anchor's prompt index lies in `[s, s + ps.length)`
and its kind is never `chat-bottom`. -/
theorem rawAnchors_mem_bounds (context : ScrollContext) :
    ∀ (ps : List Prompt) (s : ℕ), ∀ a ∈ rawAnchors context ps s,
      s ≤ a.promptIndex ∧ a.promptIndex < s + ps.length ∧ a.kind ≠ .chatBottom := by
  intro ps
  induction ps with
  | nil =>
    intro s a ha
    cases ha
  | cons el rest ih =>
    intro s a ha
    by_cases htall : el.rectHeight > context.viewHeight * 0.8
    · simp only [rawAnchors, if_pos htall, List.singleton_append, List.mem_cons] at ha
      rcases ha with rfl | rfl | ha
      · exact ⟨le_refl s, by simp, by simp⟩
      · exact ⟨le_refl s, by simp, by simp⟩
      · obtain ⟨hle, hlt, hk⟩ := ih (s + 1) a ha
        exact ⟨by omega, by simp only [List.length_cons]; omega, hk⟩
    · simp only [rawAnchors, if_neg htall, List.nil_append, List.mem_cons] at ha
      rcases ha with rfl | ha
      · exact ⟨le_refl s, by simp, by simp⟩
      · obtain ⟨hle, hlt, hk⟩ := ih (s + 1) a ha
        exact ⟨by omega, by simp only [List.length_cons]; omega, hk⟩

/-- Exactly one `top` anchor per turn index. -/
theorem rawAnchors_countP_top (context : ScrollContext) :
    ∀ (ps : List Prompt) (s i : ℕ), i < ps.length →
      (rawAnchors context ps s).countP
        (fun a => decide (a.kind = .top ∧ a.promptIndex = s + i)) = 1 := by
  intro ps
  induction ps with
  | nil =>
    intro s i h
    exact absurd h (by simp)
  | cons el rest ih =>
    intro s i h
    have hrec0 : ∀ i, i < s + 1 →
        (rawAnchors context rest (s + 1)).countP
          (fun a => decide (a.kind = .top ∧ a.promptIndex = i)) = 0 := by
      intro m hm
      rw [List.countP_eq_zero]
      intro a ha
      obtain ⟨hle, -, -⟩ := rawAnchors_mem_bounds context rest (s + 1) a ha
      simp only [decide_eq_true_eq, not_and]
      intro _
      omega
    cases i with
    | zero =>
      by_cases htall : el.rectHeight > context.viewHeight * 0.8
      · simp only [rawAnchors, if_pos htall, List.singleton_append, List.countP_cons]
        rw [hrec0 (s + 0) (by omega)]
        simp
      · simp only [rawAnchors, if_neg htall, List.nil_append, List.countP_cons]
        rw [hrec0 (s + 0) (by omega)]
        simp
    | succ j =>
      have hj : j < rest.length := by simpa using h
      have hrec := ih (s + 1) j hj
      rw [show s + (j + 1) = (s + 1) + j by omega]
      by_cases htall : el.rectHeight > context.viewHeight * 0.8
      · simp only [rawAnchors, if_pos htall, List.singleton_append, List.countP_cons]
        rw [hrec]
        simp only [decide_eq_true_eq]
        have hne : ¬ s = s + 1 + j := by omega
        simp [hne]
      · simp only [rawAnchors, if_neg htall, List.nil_append, List.countP_cons]
        rw [hrec]
        simp only [decide_eq_true_eq]
        have hne : ¬ s = s + 1 + j := by omega
        simp [hne]

/-- Exactly one `bottom` anchor per tall turn, none otherwise. -/
theorem rawAnchors_countP_bottom (context : ScrollContext) :
    ∀ (ps : List Prompt) (s i : ℕ) (h : i < ps.length),
      (rawAnchors context ps s).countP
        (fun a => decide (a.kind = .bottom ∧ a.promptIndex = s + i))
        = if (ps.get ⟨i, h⟩).rectHeight > context.viewHeight * 0.8 then 1 else 0 := by
  intro ps
  induction ps with
  | nil =>
    intro s i h
    exact absurd h (by simp)
  | cons el rest ih =>
    intro s i h
    have hrec0 : ∀ m, m < s + 1 →
        (rawAnchors context rest (s + 1)).countP
          (fun a => decide (a.kind = .bottom ∧ a.promptIndex = m)) = 0 := by
      intro m hm
      rw [List.countP_eq_zero]
      intro a ha
      obtain ⟨hle, -, -⟩ := rawAnchors_mem_bounds context rest (s + 1) a ha
      simp only [decide_eq_true_eq, not_and]
      intro _
      omega
    cases i with
    | zero =>
      have hget : (el :: rest).get ⟨0, h⟩ = el := rfl
      rw [hget]
      by_cases htall : el.rectHeight > context.viewHeight * 0.8
      · rw [if_pos htall]
        simp only [rawAnchors, if_pos htall, List.singleton_append, List.countP_cons]
        rw [hrec0 (s + 0) (by omega)]
        simp
      · rw [if_neg htall]
        simp only [rawAnchors, if_neg htall, List.nil_append, List.countP_cons]
        rw [hrec0 (s + 0) (by omega)]
        simp
    | succ j =>
      have hj : j < rest.length := by simpa using h
      have hget : (el :: rest).get ⟨j + 1, h⟩ = rest.get ⟨j, hj⟩ := rfl
      rw [hget]
      have hrec := ih (s + 1) j hj
      rw [show s + (j + 1) = (s + 1) + j by omega]
      by_cases htall : el.rectHeight > context.viewHeight * 0.8
      · simp only [rawAnchors, if_pos htall, List.singleton_append, List.countP_cons]
        rw [hrec]
        have hne : ¬ s = s + 1 + j := by omega
        simp [hne]
      · simp only [rawAnchors, if_neg htall, List.nil_append, List.countP_cons]
        rw [hrec]
        have hne : ¬ s = s + 1 + j := by omega
        simp [hne]

/-- Every `top` anchor sits at its turn's start offset. -/
theorem rawAnchors_top_y (context : ScrollContext) :
    ∀ (ps : List Prompt) (s : ℕ), ∀ a ∈ rawAnchors context ps s, a.kind = .top →
      ∃ j, ∃ h : j < ps.length, a.promptIndex = s + j
        ∧ a.y = topYOf context (ps.get ⟨j, h⟩) := by
  intro ps
  induction ps with
  | nil =>
    intro s a ha
    cases ha
  | cons el rest ih =>
    intro s a ha hk
    by_cases htall : el.rectHeight > context.viewHeight * 0.8
    · simp only [rawAnchors, if_pos htall, List.singleton_append, List.mem_cons] at ha
      rcases ha with rfl | rfl | ha
      · exact ⟨0, by simp, by simp, rfl⟩
      · cases hk
      · obtain ⟨j, hj, hidx, hy⟩ := ih (s + 1) a ha hk
        exact ⟨j + 1, by simpa using hj, by omega, hy⟩
    · simp only [rawAnchors, if_neg htall, List.nil_append, List.mem_cons] at ha
      rcases ha with rfl | ha
      · exact ⟨0, by simp, by simp, rfl⟩
      · obtain ⟨j, hj, hidx, hy⟩ := ih (s + 1) a ha hk
        exact ⟨j + 1, by simpa using hj, by omega, hy⟩

/-- Every `bottom` anchor sits at its turn's end offset, and only tall
turns have one. -/
theorem rawAnchors_bottom_y (context : ScrollContext) :
    ∀ (ps : List Prompt) (s : ℕ), ∀ a ∈ rawAnchors context ps s, a.kind = .bottom →
      ∃ j, ∃ h : j < ps.length, a.promptIndex = s + j
        ∧ a.y = topYOf context (ps.get ⟨j, h⟩) + (ps.get ⟨j, h⟩).rectHeight
        ∧ (ps.get ⟨j, h⟩).rectHeight > context.viewHeight * 0.8 := by
  intro ps
  induction ps with
  | nil =>
    intro s a ha
    cases ha
  | cons el rest ih =>
    intro s a ha hk
    by_cases htall : el.rectHeight > context.viewHeight * 0.8
    · simp only [rawAnchors, if_pos htall, List.singleton_append, List.mem_cons] at ha
      rcases ha with rfl | rfl | ha
      · cases hk
      · exact ⟨0, by simp, by simp, rfl, htall⟩
      · obtain ⟨j, hj, hidx, hy, htall'⟩ := ih (s + 1) a ha hk
        exact ⟨j + 1, by simpa using hj, by omega, hy, htall'⟩
    · simp only [rawAnchors, if_neg htall, List.nil_append, List.mem_cons] at ha
      rcases ha with rfl | ha
      · cases hk
      · obtain ⟨j, hj, hidx, hy, htall'⟩ := ih (s + 1) a ha hk
        exact ⟨j + 1, by simpa using hj, by omega, hy, htall'⟩

/-- C3 (amended): `buildAnchors` returns a list sorted ascending by
offset with exactly one `top` anchor per turn at the turn's start
offset, one `bottom` anchor exactly for the turns whose rendered height
exceeds 80% of the viewport height (at the turn's end offset), and one
trailing `chat-bottom` anchor at the scroll extent; the final element of
the sorted list has the `chat-bottom` kind provided every anchor offset
lies within the scroll extent. -/
theorem c3_buildAnchors_shape (prompts : List Prompt) (context : ScrollContext) :
    (buildAnchors prompts context).Sorted (fun a b => a.y ≤ b.y) ∧
    (∀ i, i < prompts.length →
      (buildAnchors prompts context).countP
        (fun a => decide (a.kind = .top ∧ a.promptIndex = i)) = 1) ∧
    (∀ a ∈ buildAnchors prompts context, a.kind = .top →
      ∃ j, ∃ h : j < prompts.length, a.promptIndex = j ∧
        a.y = topYOf context (prompts.get ⟨j, h⟩)) ∧
    (∀ i (h : i < prompts.length),
      (buildAnchors prompts context).countP
        (fun a => decide (a.kind = .bottom ∧ a.promptIndex = i))
        = if (prompts.get ⟨i, h⟩).rectHeight > context.viewHeight * 0.8 then 1 else 0) ∧
    (∀ a ∈ buildAnchors prompts context, a.kind = .bottom →
      ∃ j, ∃ h : j < prompts.length, a.promptIndex = j ∧
        a.y = topYOf context (prompts.get ⟨j, h⟩) + (prompts.get ⟨j, h⟩).rectHeight ∧
        (prompts.get ⟨j, h⟩).rectHeight > context.viewHeight * 0.8) ∧
    (buildAnchors prompts context).countP (fun a => decide (a.kind = .chatBottom)) = 1 ∧
    (∀ a ∈ buildAnchors prompts context, a.kind = .chatBottom →
      a.y = context.scrollHeight) ∧
    ((∀ a ∈ buildAnchors prompts context, a.y ≤ context.scrollHeight) →
      ∃ a, (buildAnchors prompts context).getLast? = some a ∧ a.kind = .chatBottom) := by
  have hdef : buildAnchors prompts context
      = stableSortByKey Anchor.y (rawAnchors context prompts 0
          ++ [⟨none, .chatBottom, context.scrollHeight, prompts.length⟩]) := rfl
  have hperm : List.Perm (buildAnchors prompts context)
      (rawAnchors context prompts 0
        ++ [⟨none, .chatBottom, context.scrollHeight, prompts.length⟩]) := by
    rw [hdef]
    exact stableSortByKey_perm _ _
  refine ⟨?_, ?_, ?_, ?_, ?_, ?_, ?_, ?_⟩
  · rw [hdef]
    exact stableSortByKey_sorted Anchor.y _
  · intro i hi
    rw [hperm.countP_eq, List.countP_append]
    have h1 := rawAnchors_countP_top context prompts 0 i hi
    rw [show (0 : ℕ) + i = i from by omega] at h1
    rw [h1]
    simp
  · intro a ha hk
    rcases List.mem_append.mp (hperm.mem_iff.mp ha) with hraw | hcb
    · obtain ⟨j, hj, hidx, hy⟩ := rawAnchors_top_y context prompts 0 a hraw hk
      exact ⟨j, hj, by omega, hy⟩
    · rw [List.mem_singleton] at hcb
      rw [hcb] at hk
      cases hk
  · intro i hi
    rw [hperm.countP_eq, List.countP_append]
    have h1 := rawAnchors_countP_bottom context prompts 0 i hi
    rw [show (0 : ℕ) + i = i from by omega] at h1
    rw [h1]
    simp
  · intro a ha hk
    rcases List.mem_append.mp (hperm.mem_iff.mp ha) with hraw | hcb
    · obtain ⟨j, hj, hidx, hy, ht⟩ := rawAnchors_bottom_y context prompts 0 a hraw hk
      exact ⟨j, hj, by omega, hy, ht⟩
    · rw [List.mem_singleton] at hcb
      rw [hcb] at hk
      cases hk
  · rw [hperm.countP_eq, List.countP_append]
    have h0 : (rawAnchors context prompts 0).countP
        (fun a => decide (a.kind = .chatBottom)) = 0 := by
      rw [List.countP_eq_zero]
      intro a ha
      obtain ⟨-, -, hk⟩ := rawAnchors_mem_bounds context prompts 0 a ha
      simpa using hk
    rw [h0]
    simp
  · intro a ha hk
    rcases List.mem_append.mp (hperm.mem_iff.mp ha) with hraw | hcb
    · obtain ⟨-, -, hk'⟩ := rawAnchors_mem_bounds context prompts 0 a hraw
      exact absurd hk hk'
    · rw [List.mem_singleton] at hcb
      rw [hcb]
  · intro hbound
    have happend : buildAnchors prompts context
        = stableSortByKey Anchor.y (rawAnchors context prompts 0)
            ++ [⟨none, .chatBottom, context.scrollHeight, prompts.length⟩] := by
      rw [hdef, stableSortByKey_concat]
      apply stableInsert_eq_append
      intro a ha
      have hamem : a ∈ rawAnchors context prompts 0 :=
        (stableSortByKey_perm Anchor.y _).mem_iff.mp ha
      have hmem : a ∈ buildAnchors prompts context :=
        hperm.mem_iff.mpr (List.mem_append_left _ hamem)
      simpa using hbound a hmem
    rw [happend, List.getLast?_concat]
    exact ⟨_, rfl, rfl⟩

/-- Concrete instantiation of `c3_buildAnchors_shape`: one tall turn
(height 120 > 0.8 · 100) yields one top and one bottom anchor for
index 0, and with all offsets inside the extent the final anchor is the
chat-bottom anchor. -/
theorem c3_buildAnchors_shape_witness :
    (buildAnchors [⟨0, 100, 120⟩] ⟨0, 100, 0, 1000⟩).countP
      (fun a => decide (a.kind = .top ∧ a.promptIndex = 0)) = 1 ∧
    (buildAnchors [⟨0, 100, 120⟩] ⟨0, 100, 0, 1000⟩).countP
      (fun a => decide (a.kind = .bottom ∧ a.promptIndex = 0)) = 1 ∧
    (∃ a, (buildAnchors [⟨0, 100, 120⟩] ⟨0, 100, 0, 1000⟩).getLast? = some a ∧
      a.kind = .chatBottom) := by
  obtain ⟨-, h2, -, h4, -, -, -, h8⟩ :=
    c3_buildAnchors_shape [⟨0, 100, 120⟩] ⟨0, 100, 0, 1000⟩
  have hb : buildAnchors [⟨0, 100, 120⟩] (⟨0, 100, 0, 1000⟩ : ScrollContext)
      = [⟨some 0, .top, 100, 0⟩, ⟨some 0, .bottom, 220, 0⟩, ⟨none, .chatBottom, 1000, 1⟩] := by
    norm_num [buildAnchors, rawAnchors, topYOf, stableSortByKey, stableInsert]
  refine ⟨h2 0 (by norm_num), ?_, h8 ?_⟩
  · have h4' := h4 0 (by norm_num)
    rw [if_pos (by norm_num)] at h4'
    exact h4'
  · intro a ha
    rw [hb] at ha
    rcases List.mem_cons.mp ha with rfl | ha
    · norm_num
    rcases List.mem_cons.mp ha with rfl | ha
    · norm_num
    rcases List.mem_cons.mp ha with rfl | ha
    · norm_num
    cases ha

/-- C3 counterexample: with a turn whose start offset (100) exceeds the
scroll extent (50), the sorted anchor list ends with the turn's `top`
anchor, not the `end` (`chat-bottom`) anchor. -/
theorem c3_last_kind_counterexample :
    (buildAnchors [⟨0, 100, 10⟩] ⟨0, 100, 0, 50⟩).getLast?
      = some ⟨some 0, .top, 100, 0⟩ ∧
    AnchorKind.top ≠ AnchorKind.chatBottom := by
  constructor
  · have hb : buildAnchors [⟨0, 100, 10⟩] (⟨0, 100, 0, 50⟩ : ScrollContext)
        = [⟨none, .chatBottom, 50, 1⟩, ⟨some 0, .top, 100, 0⟩] := by
      norm_num [buildAnchors, rawAnchors, topYOf, stableSortByKey, stableInsert]
    rw [hb]
    rfl
  · decide

end Navigator
end ChatGPTUX

namespace ChatGPTUX
namespace Collector

/-! ## `ContextCollector` (`unifiedContentScript.js:1745-2480`)

A scanned turn is embedded as its DOM identity, the attributes read by
`determineMessageRole`, and its extracted text (`extractTurnText` is a
DOM traversal; its output is the `text` field).  The `selectedTurns` JS
`Map` (keyed by turn element) is embedded as an insertion-ordered
association list keyed by turn identity. -/

structure Turn where
  id : ℕ
  el : Scanner.Element
  text : String
deriving Repr, DecidableEq

/-- The value captured per selected turn: `{ index, role, text, tokens }`. -/
structure SelEntry where
  index : ℕ
  role : String
  text : String
  tokens : ℕ
deriving Repr, DecidableEq

/-- JS `Map.prototype.has` on the association list. -/
def mapHas (m : List (ℕ × SelEntry)) (k : ℕ) : Bool :=
  m.any (fun kv => decide (kv.1 = k))

/-- JS `Map.prototype.get`. -/
def mapGet (m : List (ℕ × SelEntry)) (k : ℕ) : Option SelEntry :=
  (m.find? (fun kv => decide (kv.1 = k))).map Prod.snd

/-- JS `Map.prototype.delete`. -/
def mapDelete (m : List (ℕ × SelEntry)) (k : ℕ) : List (ℕ × SelEntry) :=
  m.filter (fun kv => decide (kv.1 ≠ k))

/-- Module state read and written by the selection handlers. -/
structure CollectorState where
  allTurns : List Turn
  selectedTurns : List (ℕ × SelEntry)
  lastClickedIndex : ℤ
deriving Repr, DecidableEq

/-- `selectTurn` (`unifiedContentScript.js:2330-2340`): no-op when the
index is out of range or the turn is already selected; otherwise capture
`{ index, role, text, tokens }` and insert (a fresh key appends in
iteration order). -/
def selectTurn (st : CollectorState) (index : ℕ) : CollectorState :=
  match st.allTurns[index]? with
  | none => st
  | some turn =>
    if mapHas st.selectedTurns turn.id then st
    else
      let role := Scanner.determineMessageRole turn.el index
      let text := turn.text
      let tokens := (TokenEstimator.estimateTokensFromText text).tokens
      { st with selectedTurns := st.selectedTurns ++ [(turn.id, ⟨index, role, text, tokens⟩)] }

/-- `toggleTurn` (`unifiedContentScript.js:2317-2328`). -/
def toggleTurn (st : CollectorState) (index : ℕ) : CollectorState :=
  match st.allTurns[index]? with
  | none => st
  | some turn =>
    if mapHas st.selectedTurns turn.id then
      { st with selectedTurns := mapDelete st.selectedTurns turn.id }
    else selectTurn st index

/-- `handleTurnClick` (`unifiedContentScript.js:2303-2315`): shift-click
with a previous interaction runs `selectTurn` over the inclusive index
range; otherwise a single toggle; either way the clicked index becomes
the last interacted index. -/
def handleTurnClick (st : CollectorState) (index : ℕ) (isShiftClick : Bool) :
    CollectorState :=
  let st' :=
    if isShiftClick && decide (st.lastClickedIndex ≥ 0) then
      let s := (min st.lastClickedIndex (index : ℤ)).toNat
      let e := (max st.lastClickedIndex (index : ℤ)).toNat
      (List.range' s (e + 1 - s)).foldl selectTurn st
    else toggleTurn st index
  { st' with lastClickedIndex := index }

/-- `clearSelection` (`unifiedContentScript.js:2383-2392`). -/
def clearSelection (st : CollectorState) : CollectorState :=
  { st with selectedTurns := [], lastClickedIndex := -1 }

/-- `selectAll` (`unifiedContentScript.js:2394-2397`):
`allTurns.forEach((_, i) => selectTurn(i))` — no clear first. -/
def selectAll (st : CollectorState) : CollectorState :=
  (List.range st.allTurns.length).foldl selectTurn st

/-- `selectLast` (`unifiedContentScript.js:2399-2406`): clear, then
select indices from `Math.max(0, length - n)` (truncated subtraction)
up to `length - 1`. -/
def selectLast (st : CollectorState) (n : ℕ) : CollectorState :=
  let st0 := clearSelection st
  let start := st0.allTurns.length - n
  (List.range' start (st0.allTurns.length - start)).foldl selectTurn st0

/-- `selectByRole` (`unifiedContentScript.js:2408-2415`): clear, then
select each turn whose classified role matches. -/
def selectByRole (st : CollectorState) (role : String) : CollectorState :=
  let st0 := clearSelection st
  st0.allTurns.enum.foldl
    (fun s p =>
      if Scanner.determineMessageRole p.2.el p.1 = role then selectTurn s p.1 else s)
    st0

/-! ### Export serialization (`formatOutputAs`, `getDelimiterValue`) -/

/-- Delimiter configuration `{ preset, custom }`. -/
structure DelimiterConfig where
  preset : String
  custom : String
deriving Repr, DecidableEq

/-- One pass of `String.prototype.replace` on a two-character pattern. -/
def replacePair (a b r : Char) : List Char → List Char
  | [] => []
  | [x] => [x]
  | x :: y :: t =>
    if x = a ∧ y = b then r :: replacePair a b r t
    else x :: replacePair a b r (y :: t)

/-- `getDelimiterValue` (`unifiedContentScript.js:1811-1820`):
`custom` expands `\n`/`\t` escapes (empty custom falls back to the
double newline); presets come from `DELIMITER_PRESETS`, unknown presets
fall back to the double newline. -/
def getDelimiterValue (d : DelimiterConfig) : String :=
  if d.preset = "custom" then
    let base := if d.custom = "" then "\n\n" else d.custom
    ⟨replacePair '\\' 't' '\t' (replacePair '\\' 'n' '\n' base.data)⟩
  else if d.preset = "newline" then "\n\n"
  else if d.preset = "dash" then "\n\n---\n\n"
  else if d.preset = "equals" then "\n\n===\n\n"
  else "\n\n"

/-- `Array.from(selectedTurns.entries()).sort((a, b) => a[1].index - b[1].index)`. -/
def sortedEntries (m : List (ℕ × SelEntry)) : List (ℕ × SelEntry) :=
  stableSortByKey (fun kv => (kv.2.index : ℚ)) m

/-- The role label used by the plain format. -/
def roleLabel (role : String) : String :=
  if role = "user" then "User" else "Assistant"

/-- A hexadecimal digit (for JSON control-character escapes). -/
def hexDigit (n : ℕ) : Char :=
  if n < 10 then Char.ofNat ('0'.toNat + n) else Char.ofNat ('a'.toNat + n - 10)

/-- `JSON.stringify` escaping of one character. -/
def jsonEscapeChar (c : Char) : List Char :=
  if c = '"' then ['\\', '"']
  else if c = '\\' then ['\\', '\\']
  else if c = '\n' then ['\\', 'n']
  else if c = '\t' then ['\\', 't']
  else if c = '\r' then ['\\', 'r']
  else if c.val = 8 then ['\\', 'b']
  else if c.val = 12 then ['\\', 'f']
  else if c.toNat < 32 then
    ['\\', 'u', '0', '0', hexDigit (c.toNat / 16), hexDigit (c.toNat % 16)]
  else [c]

/-- `JSON.stringify` of a string. -/
def jsonStr (s : String) : String :=
  "\"" ++ ⟨s.data.flatMap jsonEscapeChar⟩ ++ "\""

/-- `JSON.stringify(messages, null, 2)` for the `{role, content}` array. -/
def jsonMessages (sorted : List (ℕ × SelEntry)) : String :=
  if sorted.isEmpty then "[]"
  else
    "[\n"
      ++ String.intercalate ",\n" (sorted.map (fun kv =>
          "  \x7b\n    \"role\": " ++ jsonStr kv.2.role
            ++ ",\n    \"content\": " ++ jsonStr kv.2.text ++ "\n  \x7d"))
      ++ "\n]"

/-- `formatOutputAs` (`unifiedContentScript.js:2441-2472`). -/
def formatOutputAs (m : List (ℕ × SelEntry)) (format : String)
    (delim : DelimiterConfig) : String :=
  let sorted := sortedEntries m
  let delimiter := getDelimiterValue delim
  if format = "plain" then
    String.intercalate delimiter
      (sorted.map (fun kv => roleLabel kv.2.role ++ ":\n" ++ kv.2.text))
  else if format = "json" then jsonMessages sorted
  else if format = "xml" then
    String.intercalate "\n"
      (sorted.map (fun kv =>
        let tag := if kv.2.role = "user" then "user" else "assistant"
        "<" ++ tag ++ ">\n" ++ kv.2.text ++ "\n</" ++ tag ++ ">"))
  else ""

theorem selectTurn_allTurns (st : CollectorState) (i : ℕ) :
    (selectTurn st i).allTurns = st.allTurns := by
  cases h : st.allTurns[i]? with
  | none => simp [selectTurn, h]
  | some turn =>
    by_cases hhas : mapHas st.selectedTurns turn.id <;> simp [selectTurn, h, hhas]

theorem mapHas_append (m : List (ℕ × SelEntry)) (kv : ℕ × SelEntry) (k : ℕ) :
    mapHas (m ++ [kv]) k = (mapHas m k || decide (kv.1 = k)) := by
  simp [mapHas]

theorem mapDelete_has (m : List (ℕ × SelEntry)) (k : ℕ) :
    mapHas (mapDelete m k) k = false := by
  rw [mapHas, List.any_eq_false]
  intro kv hkv
  rw [mapDelete, List.mem_filter] at hkv
  simpa using hkv.2

theorem selectTurn_has_mono {st : CollectorState} {k : ℕ} (i : ℕ)
    (h : mapHas st.selectedTurns k = true) :
    mapHas (selectTurn st i).selectedTurns k = true := by
  cases hg : st.allTurns[i]? with
  | none => simpa [selectTurn, hg] using h
  | some turn =>
    by_cases hhas : mapHas st.selectedTurns turn.id
    · simpa [selectTurn, hg, hhas] using h
    · simp [selectTurn, hg, hhas, mapHas_append, h]

theorem selectTurn_selects {st : CollectorState} {i : ℕ} {turn : Turn}
    (hg : st.allTurns[i]? = some turn) :
    mapHas (selectTurn st i).selectedTurns turn.id = true := by
  by_cases hhas : mapHas st.selectedTurns turn.id
  · simpa [selectTurn, hg, hhas] using hhas
  · simp [selectTurn, hg, hhas, mapHas_append]

theorem foldl_selectTurn_allTurns (idxs : List ℕ) :
    ∀ st : CollectorState, (idxs.foldl selectTurn st).allTurns = st.allTurns := by
  induction idxs with
  | nil => intro st; rfl
  | cons j rest ih =>
    intro st
    rw [List.foldl_cons, ih, selectTurn_allTurns]

theorem foldl_selectTurn_has_mono (idxs : List ℕ) :
    ∀ (st : CollectorState) (k : ℕ), mapHas st.selectedTurns k = true →
      mapHas ((idxs.foldl selectTurn st)).selectedTurns k = true := by
  induction idxs with
  | nil => intro st k h; exact h
  | cons j rest ih =>
    intro st k h
    exact ih _ k (selectTurn_has_mono j h)

theorem foldl_selectTurn_covers (idxs : List ℕ) :
    ∀ (st : CollectorState) (i : ℕ) (turn : Turn), i ∈ idxs →
      st.allTurns[i]? = some turn →
      mapHas ((idxs.foldl selectTurn st)).selectedTurns turn.id = true := by
  induction idxs with
  | nil =>
    intro st i turn hi
    cases hi
  | cons j rest ih =>
    intro st i turn hi hg
    rcases List.mem_cons.mp hi with rfl | hi
    · exact foldl_selectTurn_has_mono rest _ _ (selectTurn_selects hg)
    · refine ih (selectTurn st j) i turn hi ?_
      rw [selectTurn_allTurns]
      exact hg

/-- C9 (amended): a plain click toggles the clicked turn's membership in
the selection; a shift-click with a recorded last interacted index runs
a range select — every turn in the inclusive index range is selected
afterwards, and previously selected turns stay selected (a union, not a
toggle). -/
theorem c9_click_selection (st : CollectorState) (index : ℕ) :
    (∀ turn, st.allTurns[index]? = some turn →
      mapHas (handleTurnClick st index false).selectedTurns turn.id
        = ! mapHas st.selectedTurns turn.id) ∧
    (st.lastClickedIndex ≥ 0 →
      (∀ (i : ℕ) (turn : Turn), (min st.lastClickedIndex (index : ℤ)).toNat ≤ i →
        (i : ℤ) ≤ max st.lastClickedIndex (index : ℤ) →
        st.allTurns[i]? = some turn →
        mapHas (handleTurnClick st index true).selectedTurns turn.id = true) ∧
      (∀ k, mapHas st.selectedTurns k = true →
        mapHas (handleTurnClick st index true).selectedTurns k = true)) := by
  constructor
  · intro turn hg
    have hplain : (handleTurnClick st index false).selectedTurns
        = (toggleTurn st index).selectedTurns := by
      simp [handleTurnClick]
    rw [hplain]
    by_cases hhas : mapHas st.selectedTurns turn.id
    · rw [toggleTurn, hg]
      simp only [if_pos hhas, hhas]
      exact mapDelete_has _ _
    · rw [toggleTurn, hg]
      simp only [if_neg hhas]
      rw [selectTurn_selects hg]
      simp [hhas]
  · intro hlast
    have hcond : (true && decide (st.lastClickedIndex ≥ 0)) = true := by
      simpa using hlast
    have hshift : (handleTurnClick st index true).selectedTurns
        = ((List.range' (min st.lastClickedIndex (index : ℤ)).toNat
            ((max st.lastClickedIndex (index : ℤ)).toNat + 1
              - (min st.lastClickedIndex (index : ℤ)).toNat)).foldl
          selectTurn st).selectedTurns := by
      simp [handleTurnClick, hcond]
    constructor
    · intro i turn hs he hg
      rw [hshift]
      have hminmax : (min st.lastClickedIndex (index : ℤ)).toNat
          ≤ (max st.lastClickedIndex (index : ℤ)).toNat :=
        Int.toNat_le_toNat (min_le_max)
      have hie : i ≤ (max st.lastClickedIndex (index : ℤ)).toNat := by
        have := Int.toNat_le_toNat he
        simpa using this
      refine foldl_selectTurn_covers _ st i turn ?_ hg
      rw [List.mem_range'_1]
      omega
    · intro k hk
      rw [hshift]
      exact foldl_selectTurn_has_mono _ st k hk

/-- Concrete instantiation of `c9_click_selection`: a plain click
deselects an already-selected turn; a shift-click from last index 0 to
index 1 selects the turn at index 1 while keeping turn 0 selected. -/
theorem c9_click_selection_witness :
    mapHas (handleTurnClick
      ⟨[⟨0, ⟨some "user", none, "", ""⟩, "hello"⟩,
        ⟨1, ⟨some "assistant", none, "", ""⟩, "world"⟩],
       [(0, ⟨0, "user", "hello", 2⟩)], 0⟩ 0 false).selectedTurns 0 = false ∧
    mapHas (handleTurnClick
      ⟨[⟨0, ⟨some "user", none, "", ""⟩, "hello"⟩,
        ⟨1, ⟨some "assistant", none, "", ""⟩, "world"⟩],
       [(0, ⟨0, "user", "hello", 2⟩)], 0⟩ 1 true).selectedTurns 1 = true := by
  obtain ⟨hplain, hshift⟩ := c9_click_selection
    ⟨[⟨0, ⟨some "user", none, "", ""⟩, "hello"⟩,
      ⟨1, ⟨some "assistant", none, "", ""⟩, "world"⟩],
     [(0, ⟨0, "user", "hello", 2⟩)], 0⟩ 0
  obtain ⟨hplain1, hshift1⟩ := c9_click_selection
    ⟨[⟨0, ⟨some "user", none, "", ""⟩, "hello"⟩,
      ⟨1, ⟨some "assistant", none, "", ""⟩, "world"⟩],
     [(0, ⟨0, "user", "hello", 2⟩)], 0⟩ 1
  constructor
  · have := hplain ⟨0, ⟨some "user", none, "", ""⟩, "hello"⟩ (by decide)
    rw [this]
    decide
  · exact (hshift1 (by decide)).1 1 ⟨1, ⟨some "assistant", none, "", ""⟩, "world"⟩
      (by decide) (by decide) (by decide)

/-- C9 counterexample: with turn 0 already selected and last interacted
index 0, a shift-click on index 1 leaves turn 0 selected — the range
operation selects rather than toggles, so the claimed range toggle
(which would deselect turn 0) does not hold. -/
theorem c9_range_toggle_counterexample :
    mapHas (⟨[⟨0, ⟨some "user", none, "", ""⟩, "hello"⟩,
        ⟨1, ⟨some "assistant", none, "", ""⟩, "world"⟩],
       [(0, ⟨0, "user", "hello", 2⟩)], 0⟩ : CollectorState).selectedTurns 0 = true ∧
    ¬ (mapHas (handleTurnClick
        ⟨[⟨0, ⟨some "user", none, "", ""⟩, "hello"⟩,
          ⟨1, ⟨some "assistant", none, "", ""⟩, "world"⟩],
         [(0, ⟨0, "user", "hello", 2⟩)], 0⟩ 1 true).selectedTurns 0
      = ! mapHas (⟨[⟨0, ⟨some "user", none, "", ""⟩, "hello"⟩,
          ⟨1, ⟨some "assistant", none, "", ""⟩, "world"⟩],
         [(0, ⟨0, "user", "hello", 2⟩)], 0⟩ : CollectorState).selectedTurns 0) := by
  decide

theorem selectTurn_keys_fresh {st : CollectorState} {i : ℕ} {turn : Turn}
    (hg : st.allTurns[i]? = some turn)
    (hfresh : mapHas st.selectedTurns turn.id = false) :
    (selectTurn st i).selectedTurns.map Prod.fst
      = st.selectedTurns.map Prod.fst ++ [turn.id] := by
  simp [selectTurn, hg, hfresh]

theorem turns_id_inj {l : List Turn} (hnd : (l.map Turn.id).Nodup)
    {i j : ℕ} {t t1 : Turn} (hi : l[i]? = some t) (hj : l[j]? = some t1)
    (hid : t.id = t1.id) : i = j := by
  have hi' : (l.map Turn.id)[i]? = some t.id := by
    rw [List.getElem?_map, hi]
    rfl
  have hj' : (l.map Turn.id)[j]? = some t1.id := by
    rw [List.getElem?_map, hj]
    rfl
  have hlen : i < (l.map Turn.id).length := by
    rw [List.length_map]
    exact (List.getElem?_eq_some.mp hi).1
  exact List.getElem?_inj hlen hnd (by rw [hi', hj', hid])

theorem foldl_selectTurn_keys :
    ∀ (idxs : List ℕ) (st : CollectorState),
      idxs.Nodup →
      (st.allTurns.map Turn.id).Nodup →
      (∀ i ∈ idxs, ∀ t, st.allTurns[i]? = some t →
        mapHas st.selectedTurns t.id = false) →
      ((idxs.foldl selectTurn st).selectedTurns.map Prod.fst)
        = st.selectedTurns.map Prod.fst
          ++ idxs.filterMap (fun i => (st.allTurns[i]?).map Turn.id) := by
  intro idxs
  induction idxs with
  | nil =>
    intro st _ _ _
    simp
  | cons j rest ih =>
    intro st hnd hids hfresh
    have hrestnd : rest.Nodup := (List.nodup_cons.mp hnd).2
    cases hgj : st.allTurns[j]? with
    | none =>
      have hstj : selectTurn st j = st := by
        simp [selectTurn, hgj]
      rw [List.foldl_cons, hstj,
        ih st hrestnd hids (fun i hi => hfresh i (List.mem_cons_of_mem j hi)),
        List.filterMap_cons_none (by rw [hgj]; rfl)]
    | some t =>
      have hf : mapHas st.selectedTurns t.id = false :=
        hfresh j (List.mem_cons_self j rest) t hgj
      have hall : (selectTurn st j).allTurns = st.allTurns := selectTurn_allTurns st j
      have hfresh1 : ∀ i ∈ rest, ∀ t1, (selectTurn st j).allTurns[i]? = some t1 →
          mapHas (selectTurn st j).selectedTurns t1.id = false := by
        intro i hi t1 hg1
        rw [hall] at hg1
        have hf1 := hfresh i (List.mem_cons_of_mem j hi) t1 hg1
        have hij : i ≠ j := fun h => (List.nodup_cons.mp hnd).1 (h ▸ hi)
        have hneq : ¬ (t.id = t1.id) := fun h =>
          hij ((turns_id_inj hids hgj hg1 h).symm)
        have hsel : (selectTurn st j).selectedTurns
            = st.selectedTurns ++ [(t.id,
                ⟨j, Scanner.determineMessageRole t.el j, t.text,
                  (TokenEstimator.estimateTokensFromText t.text).tokens⟩)] := by
          simp [selectTurn, hgj, hf]
        rw [hsel, mapHas_append, hf1]
        simpa using hneq
      rw [List.foldl_cons,
        ih (selectTurn st j) hrestnd (by rw [hall]; exact hids) hfresh1,
        selectTurn_keys_fresh hgj hf,
        List.filterMap_cons_some (b := t.id) (by rw [hgj]; rfl)]
      simp only [hall]
      rw [List.append_assoc]
      rfl

theorem range'_filterMap_getElem {α β : Type} (f : α → β) :
    ∀ (n s : ℕ) (l : List α), s + n = l.length →
      (List.range' s n).filterMap (fun i => (l[i]?).map f) = (l.drop s).map f := by
  intro n
  induction n with
  | zero =>
    intro s l h
    have hs : s = l.length := by omega
    rw [hs]
    simp
  | succ n ih =>
    intro s l h
    have hs : s < l.length := by omega
    rw [List.range'_succ, List.filterMap_cons, List.getElem?_eq_getElem hs]
    rw [ih (s + 1) l (by omega), List.drop_eq_getElem_cons hs, List.map_cons]
    rfl

theorem foldl_selectByRole_eq (role : String) :
    ∀ (pairs : List (ℕ × Turn)) (st : CollectorState),
      pairs.foldl (fun s p =>
        if Scanner.determineMessageRole p.2.el p.1 = role then selectTurn s p.1 else s) st
        = ((pairs.filter (fun p =>
            decide (Scanner.determineMessageRole p.2.el p.1 = role))).map Prod.fst).foldl
            selectTurn st := by
  intro pairs
  induction pairs with
  | nil =>
    intro st
    rfl
  | cons p rest ih =>
    intro st
    by_cases hq : Scanner.determineMessageRole p.2.el p.1 = role
    · rw [List.foldl_cons, if_pos hq, ih, List.filter_cons, if_pos (by simpa using hq)]
      rfl
    · rw [List.foldl_cons, if_neg hq, ih, List.filter_cons, if_neg (by simpa using hq)]

theorem filterMap_map_fst {β : Type} {l : List Turn} (f : Turn → β) :
    ∀ (pairs : List (ℕ × Turn)), (∀ p ∈ pairs, l[p.1]? = some p.2) →
      (pairs.map Prod.fst).filterMap (fun i => (l[i]?).map f)
        = pairs.map (fun p => f p.2) := by
  intro pairs
  induction pairs with
  | nil =>
    intro _
    rfl
  | cons p rest ih =>
    intro h
    rw [List.map_cons, List.filterMap_cons, h p (List.mem_cons_self p rest)]
    rw [ih (fun p1 hp1 => h p1 (List.mem_cons_of_mem p hp1))]
    rfl

theorem mapGet_append_left {m l : List (ℕ × SelEntry)} {k : ℕ} {v : SelEntry}
    (h : mapGet m k = some v) : mapGet (m ++ l) k = some v := by
  rw [mapGet, List.find?_append]
  rw [mapGet] at h
  cases hf : m.find? (fun kv => decide (kv.1 = k)) with
  | none =>
    rw [hf] at h
    cases h
  | some kv =>
    rw [hf] at h
    simpa using h

theorem selectTurn_get_mono {st : CollectorState} {k : ℕ} {v : SelEntry} (i : ℕ)
    (h : mapGet st.selectedTurns k = some v) :
    mapGet (selectTurn st i).selectedTurns k = some v := by
  cases hg : st.allTurns[i]? with
  | none => simpa [selectTurn, hg] using h
  | some turn =>
    by_cases hhas : mapHas st.selectedTurns turn.id
    · simpa [selectTurn, hg, hhas] using h
    · have hsel : (selectTurn st i).selectedTurns
          = st.selectedTurns ++ [(turn.id,
              ⟨i, Scanner.determineMessageRole turn.el i, turn.text,
                (TokenEstimator.estimateTokensFromText turn.text).tokens⟩)] := by
        simp [selectTurn, hg, hhas]
      rw [hsel]
      exact mapGet_append_left h

theorem foldl_selectTurn_get_mono (idxs : List ℕ) :
    ∀ (st : CollectorState) (k : ℕ) (v : SelEntry),
      mapGet st.selectedTurns k = some v →
      mapGet ((idxs.foldl selectTurn st)).selectedTurns k = some v := by
  induction idxs with
  | nil =>
    intro st k v h
    exact h
  | cons j rest ih =>
    intro st k v h
    exact ih _ k v (selectTurn_get_mono j h)

/-- C10: `selectLast(n)` and `selectByRole(role)` replace the selection —
afterwards the selection keys are exactly the last `min(n, total)` turns
(respectively exactly the turns classified with the given role), in scan
order, regardless of the previous selection; `selectAll` adds every
scanned turn without clearing, preserving existing entries. -/
theorem c10_bulk_selection (st : CollectorState) (n : ℕ) (role : String)
    (hids : (st.allTurns.map Turn.id).Nodup) :
    ((selectLast st n).selectedTurns.map Prod.fst
      = (st.allTurns.drop (st.allTurns.length - n)).map Turn.id) ∧
    ((st.allTurns.drop (st.allTurns.length - n)).length = min n st.allTurns.length) ∧
    ((selectByRole st role).selectedTurns.map Prod.fst
      = (st.allTurns.enum.filter
          (fun p => decide (Scanner.determineMessageRole p.2.el p.1 = role))).map
            (fun p => p.2.id)) ∧
    (∀ turn ∈ st.allTurns, mapHas (selectAll st).selectedTurns turn.id = true) ∧
    (∀ k v, mapGet st.selectedTurns k = some v →
      mapGet (selectAll st).selectedTurns k = some v) := by
  refine ⟨?_, ?_, ?_, ?_, ?_⟩
  · have hkeys := foldl_selectTurn_keys
      (List.range' (st.allTurns.length - n) (st.allTurns.length - (st.allTurns.length - n)))
      (clearSelection st) (List.nodup_range' _ _) hids
      (fun i _ t _ => rfl)
    have hdef : selectLast st n
        = (List.range' (st.allTurns.length - n)
            (st.allTurns.length - (st.allTurns.length - n))).foldl
          selectTurn (clearSelection st) := rfl
    rw [hdef, hkeys]
    simp only [show (clearSelection st).allTurns = st.allTurns from rfl,
      show (clearSelection st).selectedTurns = [] from rfl,
      List.map_nil, List.nil_append]
    exact range'_filterMap_getElem Turn.id
      (st.allTurns.length - (st.allTurns.length - n)) (st.allTurns.length - n)
      st.allTurns (by omega)
  · rw [List.length_drop]
    rcases le_total n st.allTurns.length with h | h
    · rw [min_eq_left h]
      omega
    · rw [min_eq_right h]
      omega
  · have hdef : selectByRole st role
        = st.allTurns.enum.foldl
          (fun s p =>
            if Scanner.determineMessageRole p.2.el p.1 = role then selectTurn s p.1 else s)
          (clearSelection st) := rfl
    rw [hdef, foldl_selectByRole_eq role st.allTurns.enum (clearSelection st)]
    have hsub : ((st.allTurns.enum.filter
        (fun p => decide (Scanner.determineMessageRole p.2.el p.1 = role))).map
          Prod.fst).Sublist (st.allTurns.enum.map Prod.fst) :=
      (List.filter_sublist _).map Prod.fst
    have hndidx : ((st.allTurns.enum.filter
        (fun p => decide (Scanner.determineMessageRole p.2.el p.1 = role))).map
          Prod.fst).Nodup := by
      refine hsub.nodup ?_
      rw [List.enum_map_fst]
      exact List.nodup_range _
    have hkeys := foldl_selectTurn_keys
      ((st.allTurns.enum.filter
        (fun p => decide (Scanner.determineMessageRole p.2.el p.1 = role))).map
          Prod.fst)
      (clearSelection st) hndidx hids (fun i _ t _ => rfl)
    rw [hkeys]
    simp only [show (clearSelection st).allTurns = st.allTurns from rfl,
      show (clearSelection st).selectedTurns = [] from rfl,
      List.map_nil, List.nil_append]
    exact filterMap_map_fst Turn.id
      (st.allTurns.enum.filter
        (fun p => decide (Scanner.determineMessageRole p.2.el p.1 = role)))
      (fun p hp => List.mem_enum_iff_getElem?.mp (List.mem_of_mem_filter hp))
  · intro turn hturn
    obtain ⟨i, hi⟩ := List.mem_iff_getElem?.mp hturn
    have hlt : i < st.allTurns.length := (List.getElem?_eq_some.mp hi).1
    exact foldl_selectTurn_covers _ st i turn (List.mem_range.mpr hlt) hi
  · intro k v h
    exact foldl_selectTurn_get_mono _ st k v h

/-- Concrete instantiation of `c10_bulk_selection`: two turns with a
stale selection; `selectLast 1` keeps exactly the last turn,
`selectByRole "user"` keeps exactly the user turn, and `selectAll`
retains the pre-existing entry while selecting everything. -/
theorem c10_bulk_selection_witness :
    ((selectLast ⟨[⟨0, ⟨some "user", none, "", ""⟩, "hi"⟩,
        ⟨1, ⟨some "assistant", none, "", ""⟩, "yo"⟩],
       [(0, ⟨0, "user", "hi", 2⟩)], 0⟩ 1).selectedTurns.map Prod.fst = [1]) ∧
    ((selectByRole ⟨[⟨0, ⟨some "user", none, "", ""⟩, "hi"⟩,
        ⟨1, ⟨some "assistant", none, "", ""⟩, "yo"⟩],
       [(0, ⟨0, "user", "hi", 2⟩)], 0⟩ "user").selectedTurns.map Prod.fst = [0]) ∧
    mapHas (selectAll ⟨[⟨0, ⟨some "user", none, "", ""⟩, "hi"⟩,
        ⟨1, ⟨some "assistant", none, "", ""⟩, "yo"⟩],
       [(0, ⟨0, "user", "hi", 2⟩)], 0⟩).selectedTurns 1 = true ∧
    mapGet (selectAll ⟨[⟨0, ⟨some "user", none, "", ""⟩, "hi"⟩,
        ⟨1, ⟨some "assistant", none, "", ""⟩, "yo"⟩],
       [(0, ⟨0, "user", "hi", 2⟩)], 0⟩).selectedTurns 0 = some ⟨0, "user", "hi", 2⟩ := by
  obtain ⟨h1, -, h3, h4, h5⟩ := c10_bulk_selection
    ⟨[⟨0, ⟨some "user", none, "", ""⟩, "hi"⟩,
      ⟨1, ⟨some "assistant", none, "", ""⟩, "yo"⟩],
     [(0, ⟨0, "user", "hi", 2⟩)], 0⟩ 1 "user" (by decide)
  refine ⟨by rw [h1]; decide, by rw [h3]; decide,
    h4 ⟨1, ⟨some "assistant", none, "", ""⟩, "yo"⟩ (by decide),
    h5 0 ⟨0, "user", "hi", 2⟩ (by decide)⟩

theorem pairwise_lt_of_sorted_nodup {α : Type} (key : α → ℚ) {l : List α}
    (hs : l.Sorted (fun a b => key a ≤ key b)) (hn : (l.map key).Nodup) :
    l.Pairwise (fun a b => key a < key b) := by
  have hne : l.Pairwise (fun a b => key a ≠ key b) := List.pairwise_map.mp hn
  exact (hs.and hne).imp (fun hab => lt_of_le_of_ne hab.1 hab.2)

theorem stableSortByKey_eq_of_perm {α : Type} (key : α → ℚ) {l₁ l₂ : List α}
    (hp : List.Perm l₁ l₂) (hnd : (l₁.map key).Nodup) :
    stableSortByKey key l₁ = stableSortByKey key l₂ := by
  have hp₁ := stableSortByKey_perm key l₁
  have hp₂ := stableSortByKey_perm key l₂
  have hps : List.Perm (stableSortByKey key l₁) (stableSortByKey key l₂) :=
    hp₁.trans (hp.trans hp₂.symm)
  have hnd₁ : ((stableSortByKey key l₁).map key).Nodup :=
    ((hp₁.map key).nodup_iff).mpr hnd
  have hnd₂ : ((stableSortByKey key l₂).map key).Nodup :=
    ((hps.symm.map key).nodup_iff).mpr hnd₁
  haveI : IsAntisymm α (fun a b => key a < key b) :=
    ⟨fun a b h1 h2 => absurd (lt_trans h1 h2) (lt_irrefl _)⟩
  exact List.eq_of_perm_of_sorted (r := fun a b => key a < key b) hps
    (pairwise_lt_of_sorted_nodup key (stableSortByKey_sorted key l₁) hnd₁)
    (pairwise_lt_of_sorted_nodup key (stableSortByKey_sorted key l₂) hnd₂)

/-- C6: for each serialization format, selections holding the same
entries — clicked in any order — serialize to identical strings: all
three formats sort the selected entries by original turn index before
rendering, and with duplicate-free indices the sorted entry list is
determined by the entry multiset alone. -/
theorem c6_export_order_independence (format : String) (delim : DelimiterConfig)
    (m₁ m₂ : List (ℕ × SelEntry)) (hperm : List.Perm m₁ m₂)
    (hnd : (m₁.map (fun kv => kv.2.index)).Nodup) :
    formatOutputAs m₁ format delim = formatOutputAs m₂ format delim := by
  have hndq : (m₁.map (fun kv => ((kv.2.index : ℕ) : ℚ))).Nodup := by
    have : (m₁.map (fun kv => ((kv.2.index : ℕ) : ℚ)))
        = (m₁.map (fun kv => kv.2.index)).map (fun i => ((i : ℕ) : ℚ)) := by
      rw [List.map_map]
      rfl
    rw [this]
    exact hnd.map (fun a b hab => by exact_mod_cast hab)
  have hsorted : sortedEntries m₁ = sortedEntries m₂ :=
    stableSortByKey_eq_of_perm _ hperm hndq
  rw [formatOutputAs, formatOutputAs, hsorted]

/-- Concrete instantiation of `c6_export_order_independence`: the click
orders `[3, 1, 2]` and `[1, 2, 3]` serialize identically in all three
formats. -/
theorem c6_export_order_independence_witness :
    (formatOutputAs
      [(13, ⟨3, "user", "d", 1⟩), (11, ⟨1, "assistant", "b", 1⟩), (12, ⟨2, "user", "c", 1⟩)]
      "plain" ⟨"newline", ""⟩
      = formatOutputAs
        [(11, ⟨1, "assistant", "b", 1⟩), (12, ⟨2, "user", "c", 1⟩), (13, ⟨3, "user", "d", 1⟩)]
        "plain" ⟨"newline", ""⟩) ∧
    (formatOutputAs
      [(13, ⟨3, "user", "d", 1⟩), (11, ⟨1, "assistant", "b", 1⟩), (12, ⟨2, "user", "c", 1⟩)]
      "json" ⟨"newline", ""⟩
      = formatOutputAs
        [(11, ⟨1, "assistant", "b", 1⟩), (12, ⟨2, "user", "c", 1⟩), (13, ⟨3, "user", "d", 1⟩)]
        "json" ⟨"newline", ""⟩) ∧
    (formatOutputAs
      [(13, ⟨3, "user", "d", 1⟩), (11, ⟨1, "assistant", "b", 1⟩), (12, ⟨2, "user", "c", 1⟩)]
      "xml" ⟨"newline", ""⟩
      = formatOutputAs
        [(11, ⟨1, "assistant", "b", 1⟩), (12, ⟨2, "user", "c", 1⟩), (13, ⟨3, "user", "d", 1⟩)]
        "xml" ⟨"newline", ""⟩) :=
  ⟨c6_export_order_independence "plain" ⟨"newline", ""⟩ _ _ (by decide) (by decide),
   c6_export_order_independence "json" ⟨"newline", ""⟩ _ _ (by decide) (by decide),
   c6_export_order_independence "xml" ⟨"newline", ""⟩ _ _ (by decide) (by decide)⟩

end Collector
end ChatGPTUX
